import Mathlib

/-!
Verification of the `mdx-auto-fix` preprocessor of
`principal-ade/industry-themed-mdx-editor`
(`src/plugins/mdx-auto-fix/preprocessor.ts`).

Strings are modelled as `List Char`.  Each regex-based rewrite rule of the
source is embedded as an executable scanner that reproduces the semantics of
JavaScript `String.prototype.replace` with a global regex: leftmost,
non-overlapping matches, scanning resumes right after each consumed match,
and a failed match attempt advances the scan position by one character.
All scanners are structurally recursive so that concrete runs reduce inside
the kernel.
-/

set_option maxHeartbeats 1000000

/-- Backtick character (written via its code point; source regexes quote it). -/
def bq : Char := Char.ofNat 96

/-- JavaScript `\s` character class (ECMA-262 WhiteSpace ∪ LineTerminator). -/
def isJsWhitespace (c : Char) : Bool :=
  let n := c.val
  n == 0x09 || n == 0x0a || n == 0x0b || n == 0x0c || n == 0x0d || n == 0x20 ||
  n == 0xa0 || n == 0x1680 || (0x2000 ≤ n && n ≤ 0x200a) ||
  n == 0x2028 || n == 0x2029 || n == 0x202f || n == 0x205f || n == 0x3000 ||
  n == 0xfeff

/-- JavaScript `\w` character class: `[A-Za-z0-9_]`. -/
def isWordChar (c : Char) : Bool :=
  c.isAlpha || c.isDigit || c == '_'

/-- Checks whether the head of a list is an ASCII digit (`\d` lookahead). -/
def headIsDigit : List Char → Bool
  | [] => false
  | c :: _ => c.isDigit

/-- Replacement text `&lt;`. -/
def ltEnt : List Char := ['&', 'l', 't', ';']

/-- Replacement text `&gt;`. -/
def gtEnt : List Char := ['&', 'g', 't', ';']

/-!
Rule `less-than-digit`: pattern `/<(?=\d)/g`, replacement `'&lt;'`.
The match consumes exactly the `<`; the digit is a lookahead.
-/

/-- Scanner for rule `less-than-digit`.  Returns the rewritten text and the
number of replacements made.  A `<` matches exactly when the next character
is a digit; the lookahead digit is not consumed, and a failed position
advances by one character. -/
def ltDigitRun : List Char → List Char × Nat
  | [] => ([], 0)
  | c :: cs =>
    let r := ltDigitRun cs
    if c = '<' && headIsDigit cs then (ltEnt ++ r.1, r.2 + 1)
    else (c :: r.1, r.2)

/-!
Rule `greater-than-digit`: pattern `/(?<![-\w])>(?=\s?\d)/g`, replacement
`'&gt;'`.  The scanner threads the previous character of the *input* for the
lookbehind, exactly as the regex engine inspects the subject string.
-/

/-- Lookbehind test of `greater-than-digit`: blocked when the previous
character exists and is a word character or `-`. -/
def gtBlocked : Option Char → Bool
  | none => false
  | some c => isWordChar c || c == '-'

/-- Lookahead test of `greater-than-digit`: `(?=\s?\d)`. -/
def gtLookahead : List Char → Bool
  | [] => false
  | c :: cs => c.isDigit || (isJsWhitespace c && headIsDigit cs)

/-- Scanner for rule `greater-than-digit`: a `>` matches when the
lookbehind is not blocked and the lookahead holds; the scan then continues
after the `>` with the `>` as the new previous input character. -/
def gtDigitRun (prev : Option Char) : List Char → List Char × Nat
  | [] => ([], 0)
  | c :: cs =>
    let r := gtDigitRun (some c) cs
    if c = '>' && !gtBlocked prev && gtLookahead cs then (gtEnt ++ r.1, r.2 + 1)
    else (c :: r.1, r.2)

/-!
Rule `less-than-space-digit`: pattern `/<(\s+)(?=\d)/g`, replacement
`` (_match, spaces) => `&lt;${spaces}` ``.
The greedy `\s+` followed by the digit lookahead matches exactly when the
maximal whitespace run after the `<` is nonempty and is followed by a digit
(shrinking the run cannot help, as the run is all whitespace).  The scanner
keeps the pending whitespace (reversed) while an attempt is open; on failure
it re-scans from the character following the `<`, which can only start a new
match if it is itself a `<` (the pending characters are all whitespace).
-/

/-- Scanner for rule `less-than-space-digit`.  The state `some wsRev` means a
`<` was read and `wsRev.reverse` is the whitespace consumed so far. -/
def ltSpaceRun (st : Option (List Char)) : List Char → List Char × Nat
  | [] =>
    match st with
    | none => ([], 0)
    | some wsRev => ('<' :: wsRev.reverse, 0)
  | c :: cs =>
    match st with
    | none =>
      if c = '<' then ltSpaceRun (some []) cs
      else
        let r := ltSpaceRun none cs
        (c :: r.1, r.2)
    | some wsRev =>
      if isJsWhitespace c then ltSpaceRun (some (c :: wsRev)) cs
      else if c.isDigit && !wsRev.isEmpty then
        let r := ltSpaceRun none cs
        (ltEnt ++ wsRev.reverse ++ c :: r.1, r.2 + 1)
      else if c = '<' then
        let r := ltSpaceRun (some []) cs
        ('<' :: wsRev.reverse ++ r.1, r.2)
      else
        let r := ltSpaceRun none cs
        ('<' :: wsRev.reverse ++ c :: r.1, r.2)

/-- Characters already consumed by an open attempt of
`less-than-space-digit` (used to state scanner invariants). -/
def ltSpacePending : Option (List Char) → List Char
  | none => []
  | some wsRev => '<' :: wsRev.reverse

/-!
Rule `invalid-tag-opening`: pattern `/<(\/?(?:\d[^>\s]*))/g`, replacement
`` (_match, tagContent) => `&lt;${tagContent}` ``.
After `<` and an optional `/`, a digit is required, then a greedy run of
characters that are neither `>` nor whitespace; the run (and the match) also
ends at the end of input.  On a failed attempt the scan continues at the
character after the `<` (resp. after the `/`), which can only start a match
if it is `<`.
-/

/-- Scanner state for `invalid-tag-opening`. -/
inductive R4St where
  | norm : R4St
  | lt : R4St
  | ltSlash : R4St
  | tag (slash : Bool) (accRev : List Char) : R4St

/-- Renders the capture group `\/?(?:\d[^>\s]*)` accumulated by the scanner. -/
def r4Tag (slash : Bool) (accRev : List Char) : List Char :=
  (if slash then ['/'] else []) ++ accRev.reverse

/-- Scanner for rule `invalid-tag-opening`. -/
def invalidTagRun (st : R4St) : List Char → List Char × Nat
  | [] =>
    match st with
    | .norm => ([], 0)
    | .lt => (['<'], 0)
    | .ltSlash => (['<', '/'], 0)
    | .tag slash accRev => (ltEnt ++ r4Tag slash accRev, 1)
  | c :: cs =>
    match st with
    | .norm =>
      if c = '<' then invalidTagRun .lt cs
      else
        let r := invalidTagRun .norm cs
        (c :: r.1, r.2)
    | .lt =>
      if c = '/' then invalidTagRun .ltSlash cs
      else if c.isDigit then invalidTagRun (.tag false [c]) cs
      else if c = '<' then
        let r := invalidTagRun .lt cs
        ('<' :: r.1, r.2)
      else
        let r := invalidTagRun .norm cs
        ('<' :: c :: r.1, r.2)
    | .ltSlash =>
      if c.isDigit then invalidTagRun (.tag true [c]) cs
      else if c = '<' then
        let r := invalidTagRun .lt cs
        ('<' :: '/' :: r.1, r.2)
      else
        let r := invalidTagRun .norm cs
        ('<' :: '/' :: c :: r.1, r.2)
    | .tag slash accRev =>
      if !(c = '>') && !isJsWhitespace c then
        invalidTagRun (.tag slash (c :: accRev)) cs
      else
        let r := invalidTagRun .norm cs
        (ltEnt ++ r4Tag slash accRev ++ c :: r.1, r.2 + 1)

/-- Characters already consumed by an open attempt of `invalid-tag-opening`
(used to state scanner invariants). -/
def r4Pending : R4St → List Char
  | .norm => []
  | .lt => ['<']
  | .ltSlash => ['<', '/']
  | .tag slash accRev => '<' :: ((if slash then ['/'] else []) ++ accRev.reverse)

/-!
Rule `numeric-only-tag`: pattern `/<(\d+)>/g`, replacement
`` (_match, number) => `&lt;${number}>` ``.
-/

/-- Scanner state for `numeric-only-tag`: `some accRev` holds the digits read
after a `<`, `none`-with-`lt`-flag is encoded by the two constructors. -/
inductive R5St where
  | norm : R5St
  | lt : R5St
  | digs (accRev : List Char) : R5St

/-- Scanner for rule `numeric-only-tag`. -/
def numTagRun (st : R5St) : List Char → List Char × Nat
  | [] =>
    match st with
    | .norm => ([], 0)
    | .lt => (['<'], 0)
    | .digs accRev => ('<' :: accRev.reverse, 0)
  | c :: cs =>
    match st with
    | .norm =>
      if c = '<' then numTagRun .lt cs
      else
        let r := numTagRun .norm cs
        (c :: r.1, r.2)
    | .lt =>
      if c.isDigit then numTagRun (.digs [c]) cs
      else if c = '<' then
        let r := numTagRun .lt cs
        ('<' :: r.1, r.2)
      else
        let r := numTagRun .norm cs
        ('<' :: c :: r.1, r.2)
    | .digs accRev =>
      if c.isDigit then numTagRun (.digs (c :: accRev)) cs
      else if c = '>' then
        let r := numTagRun .norm cs
        (ltEnt ++ accRev.reverse ++ '>' :: r.1, r.2 + 1)
      else if c = '<' then
        let r := numTagRun .lt cs
        ('<' :: accRev.reverse ++ r.1, r.2)
      else
        let r := numTagRun .norm cs
        ('<' :: accRev.reverse ++ c :: r.1, r.2)

/-- Characters already consumed by an open attempt of `numeric-only-tag`
(used to state scanner invariants). -/
def r5Pending : R5St → List Char
  | .norm => []
  | .lt => ['<']
  | .digs accRev => '<' :: accRev.reverse

/-!
Rule `normalize-code-block-language`: pattern `/^(\s*)```([^\n`]*?)\n/gim`
with the language-normalization replacement callback, applied by
`preprocessMDX` to the whole text with an `insideCodeBlock` toggle flipped on
every match (so every second match is treated as a closing fence and returned
unchanged).

Match semantics of the pattern: an attempt starts only at a line start (`^`
with `m`); `(\s*)` greedily takes the whitespace run (which may span
newlines); since whitespace contains no backtick, backtracking `\s*` can
never reach the three backticks, so the run is followed by ``` ``` `` or the
attempt fails; `([^\n`]*?)\n` lazily takes characters up to the first
newline, failing if a backtick or the end of input comes first.  A failed
attempt cannot hide a later successful attempt inside its consumed
characters: line starts inside the whitespace run lead to the same failure
point, and the tick/language characters are not at line starts.  The scanner
below therefore flushes failed attempts wholesale and continues at the
character that caused the failure.
-/

/-- Chunk of the whole-text language-normalization scan: either a raw
character or a fence-pattern match `(\s*)` + ``` ``` `` + language + `\n`. -/
inductive FChunk where
  | raw (c : Char) : FChunk
  | fence (ws lang : List Char) : FChunk
deriving DecidableEq

/-- Scanner state for the fence-pattern scan. -/
inductive FSt where
  | idle (lineStart : Bool) : FSt
  | ws (accRev : List Char) : FSt
  | ticks (wsRev : List Char) (k : Nat) : FSt
  | lang (wsRev langRev : List Char) : FSt

/-- Turns characters into raw chunks. -/
def rawsOf (l : List Char) : List FChunk := l.map FChunk.raw

/-- Characters consumed by a pending (incomplete) attempt. -/
def flushSt : FSt → List Char
  | .idle _ => []
  | .ws accRev => accRev.reverse
  | .ticks wsRev k => wsRev.reverse ++ List.replicate k bq
  | .lang wsRev langRev => wsRev.reverse ++ [bq, bq, bq] ++ langRev.reverse

/-- Scanner for the fence pattern `/^(\s*)```([^\n`]*?)\n/gim`. -/
def fenceScanAux (st : FSt) : List Char → List FChunk
  | [] => rawsOf (flushSt st)
  | c :: cs =>
    match st with
    | .idle ls =>
      if ls then
        if isJsWhitespace c then fenceScanAux (.ws [c]) cs
        else if c = bq then fenceScanAux (.ticks [] 1) cs
        else .raw c :: fenceScanAux (.idle (c = '\n')) cs
      else .raw c :: fenceScanAux (.idle (c = '\n')) cs
    | .ws accRev =>
      if isJsWhitespace c then fenceScanAux (.ws (c :: accRev)) cs
      else if c = bq then fenceScanAux (.ticks accRev 1) cs
      else rawsOf accRev.reverse ++ .raw c :: fenceScanAux (.idle (c = '\n')) cs
    | .ticks wsRev k =>
      if c = bq then
        if k == 2 then fenceScanAux (.lang wsRev []) cs
        else fenceScanAux (.ticks wsRev (k + 1)) cs
      else
        rawsOf (wsRev.reverse ++ List.replicate k bq) ++
          .raw c :: fenceScanAux (.idle (c = '\n')) cs
    | .lang wsRev langRev =>
      if c = '\n' then
        .fence wsRev.reverse langRev.reverse :: fenceScanAux (.idle true) cs
      else if c = bq then
        rawsOf (wsRev.reverse ++ [bq, bq, bq] ++ langRev.reverse) ++
          .raw c :: fenceScanAux (.idle false) cs
      else fenceScanAux (.lang wsRev (c :: langRev)) cs

/-- Fence-pattern matches of a text, with the raw characters in between. -/
def fenceChunks (md : List Char) : List FChunk := fenceScanAux (.idle true) md

/-- Original text of a fence-pattern match. -/
def fenceOriginal (ws lang : List Char) : List Char :=
  ws ++ [bq, bq, bq] ++ lang ++ ['\n']

/-- Known-language allow-list of the `normalize-code-block-language` rule. -/
def knownLanguages : List (List Char) :=
  ["javascript", "js", "typescript", "ts", "jsx", "tsx",
   "python", "py", "java", "c", "cpp", "csharp", "cs",
   "html", "css", "scss", "sass", "less",
   "json", "yaml", "yml", "xml", "toml",
   "bash", "sh", "shell", "powershell",
   "sql", "graphql", "markdown", "md",
   "rust", "go", "ruby", "php", "swift",
   "kotlin", "dart", "r", "matlab",
   "diff", "text", "plaintext"].map String.toList

/-- JavaScript `String.prototype.trim`: strips `\s` characters on both ends. -/
def jsTrim (l : List Char) : List Char :=
  ((l.dropWhile isJsWhitespace).reverse.dropWhile isJsWhitespace).reverse

/-- Replacement callback of `normalize-code-block-language` (JS
`toLowerCase` is modelled as ASCII lowering; all compared identifiers are
ASCII). -/
def langReplacement (ws lang : List Char) : List Char :=
  let trimmed := jsTrim lang
  let lower := trimmed.map Char.toLower
  if knownLanguages.contains lower then fenceOriginal ws lang
  else if trimmed.isEmpty then ws ++ [bq, bq, bq] ++ "markdown\n".toList
  else if lower = "n/a".toList then ws ++ [bq, bq, bq] ++ "markdown\n".toList
  else if lower = "argdown".toList then ws ++ [bq, bq, bq] ++ "markdown\n".toList
  else fenceOriginal ws lang

/-- Rendering of the whole-text pass of `preprocessMDX` for the
`normalize-code-block-language` rule: the `insideCodeBlock` toggle flips on
every fence-pattern match; a match met while `inside` is a closing fence and
is emitted unchanged; otherwise the replacement callback runs and the fix
count is incremented exactly when the replacement differs from the match. -/
def fenceRender (inside : Bool) : List FChunk → List Char × Nat
  | [] => ([], 0)
  | .raw c :: rest =>
    let r := fenceRender inside rest
    (c :: r.1, r.2)
  | .fence ws lang :: rest =>
    if inside then
      let r := fenceRender false rest
      (fenceOriginal ws lang ++ r.1, r.2)
    else
      let rep := langReplacement ws lang
      let r := fenceRender true rest
      (rep ++ r.1, if rep = fenceOriginal ws lang then r.2 else r.2 + 1)

/-!
Function `preserveCode`: splits the text into code and text parts using
`/(```[\s\S]*?```|`[^`\n]+`)/g` and maps the transformation over the text
parts only.  The first alternative matches three backticks, then lazily any
characters up to the earliest following three backticks; the second matches
a backtick, a nonempty run of characters that are neither backtick nor
newline, and a closing backtick.  With no closing delimiter both
alternatives fail and the scan advances, so unterminated regions stay text.
-/

/-- Kind of a `preserveCode` part. -/
inductive SpanKind where
  | code : SpanKind
  | text : SpanKind
deriving DecidableEq

/-- Part produced by the `preserveCode` segmentation. -/
structure Span where
  kind : SpanKind
  content : List Char
deriving DecidableEq

/-- Splits at the earliest occurrence of ``` ``` ``, returning the characters
before it and the characters after it. -/
def splitOnTriple : List Char → Option (List Char × List Char)
  | c1 :: c2 :: c3 :: rest =>
    if c1 = bq ∧ c2 = bq ∧ c3 = bq then some ([], rest)
    else
      match splitOnTriple (c2 :: c3 :: rest) with
      | some p => some (c1 :: p.1, p.2)
      | none => none
  | _ => none

/-- Inline-code alternative `` `[^`\n]+` `` at the current position. -/
def inlineAt : List Char → Option (List Char × List Char)
  | [] => none
  | c :: cs =>
    if c = bq then
      let run := cs.takeWhile fun d => !(d = bq) && !(d = '\n')
      let rest := cs.dropWhile fun d => !(d = bq) && !(d = '\n')
      match rest with
      | d :: rest' => if !run.isEmpty && d = bq then some (bq :: run ++ [bq], rest') else none
      | [] => none
    else none

/-- Code-pattern match attempt at the current position: the fenced
alternative is tried first, then the inline alternative. -/
def tripleOrInline (s : List Char) : Option (List Char × List Char) :=
  match s with
  | c1 :: c2 :: c3 :: rest =>
    if c1 = bq ∧ c2 = bq ∧ c3 = bq then
      match splitOnTriple rest with
      | some p => some (bq :: bq :: bq :: (p.1 ++ [bq, bq, bq]), p.2)
      | none => inlineAt s
    else inlineAt s
  | _ => inlineAt s

/-- Leftmost code-pattern match: the text before it, the match, and the rest. -/
def firstCode : List Char → Option (List Char × List Char × List Char)
  | [] => none
  | c :: cs =>
    match tripleOrInline (c :: cs) with
    | some p => some ([], p.1, p.2)
    | none =>
      match firstCode cs with
      | some q => some (c :: q.1, q.2.1, q.2.2)
      | none => none

/-- Fueled segmentation loop of `preserveCode`; text parts are pushed only
when nonempty, exactly as in the source.  The fuel only serves termination:
each step consumes the nonempty match, so `s.length` fuel always suffices. -/
def segmentF : Nat → List Char → List Span
  | 0, s => if s.isEmpty then [] else [⟨.text, s⟩]
  | fuel + 1, s =>
    match firstCode s with
    | none => if s.isEmpty then [] else [⟨.text, s⟩]
    | some (t, code, rest) =>
      (if t.isEmpty then [] else [⟨.text, t⟩]) ++ ⟨.code, code⟩ :: segmentF fuel rest

/-- Segmentation of `preserveCode`. -/
def segmentCode (md : List Char) : List Span := segmentF md.length md

example :
    segmentCode "a `x` b".toList =
      [⟨.text, "a ".toList⟩, ⟨.code, "`x`".toList⟩, ⟨.text, " b".toList⟩] := by decide
example :
    segmentCode "```\nx < 5\n``` t".toList =
      [⟨.code, "```\nx < 5\n```".toList⟩, ⟨.text, " t".toList⟩] := by decide
example : segmentCode "```abc <5".toList = [⟨.text, "```abc <5".toList⟩] := by decide
example : segmentCode "`abc <5".toList = [⟨.text, "`abc <5".toList⟩] := by decide
example : segmentCode "".toList = [] := by decide
example :
    segmentCode "``x`".toList =
      [⟨.text, "`".toList⟩, ⟨.code, "`x`".toList⟩] := by decide

/-!
Public entry point `preprocessMDX`.

A rule is embedded by its name together with the denotation of its
pattern/replacement pair: the total function sending a text to the rewritten
text and the number of replacements (this is exactly what one iteration of
the rule loop computes, since the source applies each rule with one global
`replace` call and counts the matches).  The `normalize-code-block-language`
rule is applied only by the dedicated whole-text pass, which looks the rule
up by name and runs its pattern/replacement with the `insideCodeBlock`
toggle; its `run` field (never consulted by the prose loop, which filters
that name out) is the toggle-less denotation of the same pattern.
-/

/-- Embedded preprocessing rule: the name and the denotation of its global
pattern/replacement application. -/
structure PRule where
  name : String
  run : List Char → List Char × Nat

/-- Statistics record (`TransformerStats` of the source): total fix count
and a name-keyed map of per-rule counts, modelled as an insertion-ordered
association list. -/
structure TransformerStats where
  totalFixes : Nat
  byTransformer : List (String × Nat)
deriving DecidableEq

/-- Lookup in the statistics map (`stats.byTransformer[name] || 0`). -/
def lookupStat (m : List (String × Nat)) (name : String) : Nat :=
  match m.find? fun p => p.1 = name with
  | some p => p.2
  | none => 0

/-- Assignment in the statistics map: replaces the entry in place or appends
a new one (JS object key assignment keeps insertion order). -/
def setStat (m : List (String × Nat)) (name : String) (n : Nat) :
    List (String × Nat) :=
  match m with
  | [] => [(name, n)]
  | p :: rest => if p.1 = name then (name, n) :: rest else p :: setStat rest name n

/-- Name of the code-block language rule, used by the special pass. -/
def codeLangName : String := "normalize-code-block-language"

/-- Default rule list `defaultPreprocessRules` in source order. -/
def defaultPreprocessRules : List PRule :=
  [⟨codeLangName, fun s => fenceRender false (fenceChunks s)⟩,
   ⟨"less-than-digit", ltDigitRun⟩,
   ⟨"less-than-space-digit", ltSpaceRun none⟩,
   ⟨"greater-than-digit", gtDigitRun none⟩,
   ⟨"invalid-tag-opening", invalidTagRun .norm⟩,
   ⟨"numeric-only-tag", numTagRun .norm⟩]

/-- Options of `preprocessMDX` (callbacks and debug logging do not influence
the returned text; the statistics they would observe are returned by
`preprocessFull`). -/
structure POptions where
  rules : List PRule := defaultPreprocessRules
  enable : Option (List String) := none
  disable : Option (List String) := none
  preserveCodeBlocks : Bool := true

/-- Active-rule filtering of `preprocessMDX`: a nonempty `enable` list keeps
exactly the rules it names; a nonempty `disable` list then removes the rules
it names. -/
def computeActive (rules : List PRule) (enable disable : Option (List String)) :
    List PRule :=
  let a :=
    match enable with
    | some e => if e.length > 0 then rules.filter fun r => e.contains r.name else rules
    | none => rules
  match disable with
  | some d => if d.length > 0 then a.filter fun r => !d.contains r.name else a
  | none => a

/-- Rule loop of the per-span `transform` closure: applies each rule in
order, bumping the statistics for a rule only when its fix count is
positive. -/
def applyRules (rules : List PRule) (t : List Char) (st : TransformerStats) :
    List Char × TransformerStats :=
  match rules with
  | [] => (t, st)
  | r :: rest =>
    let p := r.run t
    let st' :=
      if p.2 > 0 then
        ⟨st.totalFixes + p.2, setStat st.byTransformer r.name (lookupStat st.byTransformer r.name + p.2)⟩
      else st
    applyRules rest p.1 st'

/-- Maps the transform over the spans of `preserveCode`, keeping code spans
verbatim and threading the statistics left to right. -/
def runSpans (rules : List PRule) (spans : List Span) (st : TransformerStats) :
    List Char × TransformerStats :=
  match spans with
  | [] => ([], st)
  | sp :: rest =>
    match sp.kind with
    | .code =>
      let r := runSpans rules rest st
      (sp.content ++ r.1, r.2)
    | .text =>
      let p := applyRules rules sp.content st
      let r := runSpans rules rest p.2
      (p.1 ++ r.1, r.2)

/-- Entry point `preprocessMDX`, returning the text together with the final
statistics record (the record `onStats` would receive). -/
def preprocessFull (markdown : List Char) (opts : POptions) :
    List Char × TransformerStats :=
  let active := computeActive opts.rules opts.enable opts.disable
  let st0 : TransformerStats := ⟨0, []⟩
  let fencePhase :=
    if active.any fun r => r.name = codeLangName then
      let p := fenceRender false (fenceChunks markdown)
      (p.1, if p.2 > 0 then (⟨st0.totalFixes + p.2, setStat st0.byTransformer codeLangName p.2⟩ : TransformerStats) else st0)
    else (markdown, st0)
  let others := active.filter fun r => !(r.name = codeLangName)
  if opts.preserveCodeBlocks then
    runSpans others (segmentCode fencePhase.1) fencePhase.2
  else
    applyRules others fencePhase.1 fencePhase.2

/-- Returned text of `preprocessMDX`. -/
def preprocessMDX (markdown : List Char) (opts : POptions := {}) : List Char :=
  (preprocessFull markdown opts).1

/-- Statistics record passed to `onStats`: the callback is invoked exactly
when `totalFixes > 0`. -/
def reportedStats (markdown : List Char) (opts : POptions := {}) :
    Option TransformerStats :=
  let st := (preprocessFull markdown opts).2
  if st.totalFixes > 0 then some st else none

example : preprocessMDX "- <5 minutes to complete".toList =
    "- &lt;5 minutes to complete".toList := by decide
example : preprocessMDX "- < 5 minutes to complete".toList =
    "- &lt; 5 minutes to complete".toList := by decide
example : preprocessMDX "- >90% completion rate".toList =
    "- &gt;90% completion rate".toList := by decide
example : preprocessMDX "<Component prop=\x7b5\x7d />".toList =
    "<Component prop=\x7b5\x7d />".toList := by decide
example : preprocessMDX "```argdown\n[Claim]: A\n```".toList =
    "```markdown\n[Claim]: A\n```".toList := by decide
example : reportedStats "```argdown\n[Claim]: A\n```".toList =
    some ⟨1, [(codeLangName, 1)]⟩ := by decide
example : preprocessMDX "```\nif (x < 5) \x7b\x7d\n```\n\nAfter <5".toList =
    "```markdown\nif (x < 5) \x7b\x7d\n```\n\nAfter &lt;5".toList := by decide

example : (ltDigitRun "- <5 min".toList).1 = "- &lt;5 min".toList := by decide
example : (gtDigitRun none "- >90%".toList).1 = "- &gt;90%".toList := by decide
example : (gtDigitRun none "a>90%".toList).1 = "a>90%".toList := by decide
example : (ltSpaceRun none "- < 5 min".toList).1 = "- &lt; 5 min".toList := by decide
example : (ltSpaceRun none "< x".toList).1 = "< x".toList := by decide
example : (invalidTagRun .norm "</5a> x".toList).1 = "&lt;/5a> x".toList := by decide
example : (invalidTagRun .norm "<Tag>".toList).1 = "<Tag>".toList := by decide
example : (numTagRun .norm "<123> y".toList).1 = "&lt;123> y".toList := by decide
example : (numTagRun .norm "<12a>".toList).1 = "<12a>".toList := by decide
example :
    (fenceRender false (fenceChunks "```argdown\nx\n```\n".toList)).1 =
      "```markdown\nx\n```\n".toList := by decide
example : (fenceRender false (fenceChunks "```argdown\nx\n```\n".toList)).2 = 1 := by
  decide
example :
    (fenceRender false (fenceChunks "```js\nx\n```\n".toList)).1 =
      "```js\nx\n```\n".toList := by decide
example :
    (fenceRender false (fenceChunks "  ```N/A\nx\n  ```\n".toList)).1 =
      "  ```markdown\nx\n  ```\n".toList := by decide
example :
    (fenceRender false (fenceChunks "```\nplain <code\n```\n".toList)).1 =
      "```markdown\nplain <code\n```\n".toList := by decide

/-- Original text of a scan chunk. -/
def chunkOriginal : FChunk → List Char
  | .raw c => [c]
  | .fence ws lang => fenceOriginal ws lang

/-- Tests whether a chunk is a raw character (no fence-pattern match). -/
def isRawChunk : FChunk → Bool
  | .raw _ => true
  | .fence _ _ => false

/-- Per-chunk rendering of the whole-text pass: the toggle alternates on each
fence-pattern match; a match met while `inside` is a closing fence and keeps
its original text, otherwise the replacement callback is applied. -/
def renderAlternating (inside : Bool) : List FChunk → List (List Char)
  | [] => []
  | .raw c :: rest => [c] :: renderAlternating inside rest
  | .fence ws lang :: rest =>
    (if inside then fenceOriginal ws lang else langReplacement ws lang) ::
      renderAlternating (!inside) rest

/-- Invariant of the statistics record: the total equals the sum of the
per-rule counts and every recorded count is positive. -/
def statsInv (st : TransformerStats) : Prop :=
  st.totalFixes = (st.byTransformer.map Prod.snd).sum ∧
    ∀ p ∈ st.byTransformer, 0 < p.2

/-!
Exception-propagation variant for custom rules whose replacement function
may throw.  In the source, `preprocessMDX` has no try/catch: an exception
raised by a replacement callback inside `String.replace` propagates through
`transform`, through the `parts.map` of `preserveCode`, and out of
`preprocessMDX`.  A fallible rule is embedded with
`Except String (List Char × Nat)`; `Except.error` models a thrown exception
and the embedding propagates it exactly as the source does (no handler).
-/

/-- Embedded preprocessing rule with a possibly-throwing replacement. -/
structure PRuleE where
  name : String
  runE : List Char → Except String (List Char × Nat)

/-- Rule loop of `transform` over fallible rules: a thrown exception aborts
the loop (there is no try/catch in `preprocessMDX`). -/
def applyRulesE (rules : List PRuleE) (t : List Char) (st : TransformerStats) :
    Except String (List Char × TransformerStats) :=
  match rules with
  | [] => .ok (t, st)
  | r :: rest =>
    match r.runE t with
    | .error e => .error e
    | .ok p =>
      let st' :=
        if p.2 > 0 then
          ⟨st.totalFixes + p.2, setStat st.byTransformer r.name (lookupStat st.byTransformer r.name + p.2)⟩
        else st
      applyRulesE rest p.1 st'

/-- Span loop of `preserveCode` over fallible rules: an exception thrown
while transforming one text span aborts the whole call. -/
def runSpansE (rules : List PRuleE) (spans : List Span) (st : TransformerStats) :
    Except String (List Char × TransformerStats) :=
  match spans with
  | [] => .ok ([], st)
  | sp :: rest =>
    match sp.kind with
    | .code =>
      match runSpansE rules rest st with
      | .error e => .error e
      | .ok r => .ok (sp.content ++ r.1, r.2)
    | .text =>
      match applyRulesE rules sp.content st with
      | .error e => .error e
      | .ok p =>
        match runSpansE rules rest p.2 with
        | .error e => .error e
        | .ok r => .ok (p.1 ++ r.1, r.2)

/-- Entry point `preprocessMDX` over a custom fallible rule list (default
segmentation behaviour, no enable/disable filtering). -/
def preprocessMDXE (markdown : List Char) (rules : List PRuleE) :
    Except String (List Char × TransformerStats) :=
  let st0 : TransformerStats := ⟨0, []⟩
  let fencePhase :=
    if rules.any fun r => r.name = codeLangName then
      let p := fenceRender false (fenceChunks markdown)
      (p.1, if p.2 > 0 then (⟨st0.totalFixes + p.2, setStat st0.byTransformer codeLangName p.2⟩ : TransformerStats) else st0)
    else (markdown, st0)
  let others := rules.filter fun r => !(r.name = codeLangName)
  runSpansE others (segmentCode fencePhase.1) fencePhase.2

/-- Custom rule with pattern `/x/g` whose replacement callback throws: the
first invocation of the callback (i.e. the first match) raises, so the rule
application fails exactly when the pattern matches. -/
def throwingRule : PRuleE :=
  ⟨"custom-throwing-rule",
   fun s => if s.contains 'x' then .error "Error in rule custom-throwing-rule" else .ok (s, 0)⟩

/-! ### Support lemmas -/

theorem bq_not_ws : isJsWhitespace bq = false := by decide

theorem bq_not_nl : (bq = '\n') = False := by simp [bq]

theorem join_rawsOf (l : List Char) : ((rawsOf l).map chunkOriginal).flatten = l := by
  induction l with
  | nil => rfl
  | cons c cs ih => simp [rawsOf, chunkOriginal] at ih ⊢; exact ih

theorem fenceScanAux_original (s : List Char) :
    ∀ st, ((fenceScanAux st s).map chunkOriginal).flatten = flushSt st ++ s := by
  induction s with
  | nil =>
    intro st
    simpa using join_rawsOf (flushSt st)
  | cons c cs ih =>
    intro st
    match st with
    | .idle ls =>
      by_cases hls : ls
      · by_cases hws : isJsWhitespace c
        · simp [fenceScanAux, hls, hws, ih, flushSt]
        · by_cases hbq : c = bq
          · subst hbq
            simp [fenceScanAux, hls, hws, bq_not_ws, ih, flushSt, List.replicate]
          · simp [fenceScanAux, hls, hws, hbq, ih, flushSt, chunkOriginal]
      · simp [fenceScanAux, hls, ih, flushSt, chunkOriginal]
    | .ws accRev =>
      by_cases hws : isJsWhitespace c
      · simp [fenceScanAux, hws, ih, flushSt]
      · by_cases hbq : c = bq
        · subst hbq
          simp [fenceScanAux, hws, bq_not_ws, ih, flushSt, List.replicate]
        · simp [fenceScanAux, hws, hbq, ih, flushSt, chunkOriginal, join_rawsOf]
    | .ticks wsRev k =>
      by_cases hbq : c = bq
      · subst hbq
        by_cases hk : k = 2
        · subst hk
          simp [fenceScanAux, ih, flushSt, List.replicate]
        · have hk' : (k == 2) = false := by simpa using hk
          simp [fenceScanAux, hk', ih, flushSt, List.replicate_succ']
      · simp [fenceScanAux, hbq, ih, flushSt, chunkOriginal, join_rawsOf]
    | .lang wsRev langRev =>
      by_cases hnl : c = '\n'
      · simp [fenceScanAux, hnl, ih, flushSt, chunkOriginal, fenceOriginal]
      · by_cases hbq : c = bq
        · subst hbq
          simp [fenceScanAux, bq_not_nl, ih, flushSt, chunkOriginal, join_rawsOf]
        · simp [fenceScanAux, hnl, hbq, ih, flushSt]

theorem fenceRender_eq_renderAlternating (chunks : List FChunk) :
    ∀ inside, (fenceRender inside chunks).1 = (renderAlternating inside chunks).flatten := by
  induction chunks with
  | nil => intro inside; rfl
  | cons ch rest ih =>
    intro inside
    match ch with
    | .raw c => simp [fenceRender, renderAlternating, ih]
    | .fence ws lang =>
      by_cases h : inside
      · simp [fenceRender, renderAlternating, h, ih]
      · by_cases heq : langReplacement ws lang = fenceOriginal ws lang
        · simp [fenceRender, renderAlternating, h, heq, ih]
        · simp [fenceRender, renderAlternating, h, heq, ih]

theorem splitOnTriple_spec :
    ∀ s p, splitOnTriple s = some p → p.1 ++ [bq, bq, bq] ++ p.2 = s := by
  intro s
  induction s with
  | nil => intro p h; simp [splitOnTriple] at h
  | cons c1 rest ih =>
    intro p h
    match rest, ih with
    | [], _ => simp [splitOnTriple] at h
    | [c2], _ => simp [splitOnTriple] at h
    | c2 :: c3 :: rest', ih =>
      rw [splitOnTriple] at h
      by_cases hb : c1 = bq ∧ c2 = bq ∧ c3 = bq
      · rw [if_pos hb] at h
        obtain ⟨h1, h2, h3⟩ := hb
        cases h
        simp [h1, h2, h3]
      · rw [if_neg hb] at h
        cases hs : splitOnTriple (c2 :: c3 :: rest') with
        | none => rw [hs] at h; cases h
        | some q =>
          rw [hs] at h
          cases h
          have := ih q hs
          simpa using congrArg (c1 :: ·) this

theorem inlineAt_spec :
    ∀ s p, inlineAt s = some p →
      p.1 ++ p.2 = s ∧ p.1 ≠ [] ∧ p.1.getLast? = some bq := by
  intro s p h
  match s with
  | [] => simp [inlineAt] at h
  | c :: cs =>
    simp only [inlineAt] at h
    split at h
    case isTrue hc =>
      split at h
      case h_1 d rest' hrest =>
        split at h
        case isTrue hg =>
          cases h
          have hrun := List.takeWhile_append_dropWhile
            (p := fun d => !(d = bq) && !(d = '\n')) (l := cs)
          rw [hrest] at hrun
          have hd : d = bq := by
            have := hg
            simp only [Bool.and_eq_true, decide_eq_true_eq] at this
            exact this.2
          refine ⟨?_, by simp, ?_⟩
          · subst hc; subst hd
            calc bq :: (cs.takeWhile fun d => !(d = bq) && !(d = '\n')) ++ [bq] ++ rest'
                = bq :: ((cs.takeWhile fun d => !(d = bq) && !(d = '\n')) ++ bq :: rest') := by
                  simp
              _ = bq :: cs := by rw [hrun]
          · rw [← List.head?_reverse]
            simp
        case isFalse hg => cases h
      case h_2 hrest => cases h
    case isFalse hc => cases h

theorem tripleOrInline_spec :
    ∀ s p, tripleOrInline s = some p →
      p.1 ++ p.2 = s ∧ p.1 ≠ [] ∧ p.1.getLast? = some bq := by
  intro s p h
  match s with
  | [] => exact inlineAt_spec _ p h
  | [c1] => exact inlineAt_spec _ p h
  | [c1, c2] => exact inlineAt_spec _ p h
  | c1 :: c2 :: c3 :: rest =>
    rw [tripleOrInline] at h
    by_cases hb : c1 = bq ∧ c2 = bq ∧ c3 = bq
    · rw [if_pos hb] at h
      cases hs : splitOnTriple rest with
      | none => rw [hs] at h; exact inlineAt_spec _ p h
      | some q =>
        rw [hs] at h
        cases h
        have hq := splitOnTriple_spec rest q hs
        obtain ⟨h1, h2, h3⟩ := hb
        subst h1; subst h2; subst h3
        refine ⟨?_, by simp, ?_⟩
        · calc bq :: bq :: bq :: (q.1 ++ [bq, bq, bq]) ++ q.2
              = bq :: bq :: bq :: (q.1 ++ [bq, bq, bq] ++ q.2) := by simp
            _ = bq :: bq :: bq :: rest := by rw [hq]
        · rw [← List.head?_reverse]
          simp
    · rw [if_neg hb] at h
      exact inlineAt_spec _ p h

theorem firstCode_spec :
    ∀ s t code rest, firstCode s = some (t, code, rest) →
      t ++ code ++ rest = s ∧ code ≠ [] ∧ code.getLast? = some bq := by
  intro s
  induction s with
  | nil => intro t code rest h; simp [firstCode] at h
  | cons c cs ih =>
    intro t code rest h
    rw [firstCode] at h
    cases hti : tripleOrInline (c :: cs) with
    | some p =>
      rw [hti] at h
      cases h
      have := tripleOrInline_spec _ p hti
      exact ⟨by simpa using this.1, this.2.1, this.2.2⟩
    | none =>
      rw [hti] at h
      cases hfc : firstCode cs with
      | none => rw [hfc] at h; cases h
      | some q =>
        rw [hfc] at h
        cases h
        have := ih q.1 q.2.1 q.2.2 (by simpa using hfc)
        exact ⟨by simpa using congrArg (c :: ·) this.1, this.2.1, this.2.2⟩

theorem segmentF_flatten :
    ∀ fuel s, s.length ≤ fuel → ((segmentF fuel s).map Span.content).flatten = s := by
  intro fuel
  induction fuel with
  | zero =>
    intro s hs
    have : s = [] := List.length_eq_zero.mp (Nat.le_zero.mp hs)
    subst this; rfl
  | succ n ih =>
    intro s hs
    rw [segmentF]
    cases hfc : firstCode s with
    | none =>
      by_cases he : s.isEmpty
      · simp [he, List.isEmpty_iff.mp he]
      · simp [he]
    | some q =>
      obtain ⟨t, code, rest⟩ := q
      have hspec := firstCode_spec s t code rest hfc
      have hlen : rest.length ≤ n := by
        have := congrArg List.length hspec.1
        simp [List.length_append] at this
        have hc : 1 ≤ code.length := by
          cases code with
          | nil => exact absurd rfl hspec.2.1
          | cons _ _ => simp
        omega
      have hjoin := ih rest hlen
      by_cases ht : t.isEmpty
      · have ht' : t = [] := List.isEmpty_iff.mp ht
        subst ht'
        simp [hjoin]
        simpa using hspec.1
      · simp [ht, hjoin]
        simpa [List.append_assoc] using hspec.1

theorem segmentCode_flatten (md : List Char) :
    ((segmentCode md).map Span.content).flatten = md :=
  segmentF_flatten md.length md le_rfl

theorem runSpans_nil_rules (spans : List Span) (st : TransformerStats) :
    runSpans [] spans st = ((spans.map Span.content).flatten, st) := by
  induction spans generalizing st with
  | nil => rfl
  | cons sp rest ih =>
    match sp with
    | ⟨.code, content⟩ => simp [runSpans, ih]
    | ⟨.text, content⟩ => simp [runSpans, applyRules, ih]

/-! ### Claim theorems -/

/-- C1: for each of the spec's four example inputs, `preprocessMDX` with
default options returns the stated output: `"- <5 minutes to complete"`
becomes `"- &lt;5 minutes to complete"`, `"- < 5 minutes to complete"`
becomes `"- &lt; 5 minutes to complete"`, `"- >90% completion rate"` becomes
`"- &gt;90% completion rate"`, and `"<Component prop={5} />"` is returned
unchanged. -/
theorem c1_spec_examples :
    preprocessMDX "- <5 minutes to complete".toList =
        "- &lt;5 minutes to complete".toList ∧
      preprocessMDX "- < 5 minutes to complete".toList =
        "- &lt; 5 minutes to complete".toList ∧
      preprocessMDX "- >90% completion rate".toList =
        "- &gt;90% completion rate".toList ∧
      preprocessMDX "<Component prop=\x7b5\x7d />".toList =
        "<Component prop=\x7b5\x7d />".toList :=
  ⟨by decide, by decide, by decide, by decide⟩

/-- C4: the language-tag normalizer resolves each opening fence in order:
a known language (case-insensitive, trimmed) is left unchanged; an
empty/whitespace-only tag becomes the fallback `markdown`; the known-bad
tags `n/a` and `argdown` (case-insensitive) become `markdown`; any other tag
is left unchanged.  Moreover `preprocess("```argdown\n[Claim]: A\n```")`
returns ```` "```markdown\n[Claim]: A\n```" ```` with `totalFixes = 1`
counted to `normalize-code-block-language`. -/
theorem c4_language_tag_policy :
    (∀ ws lang,
      (knownLanguages.contains ((jsTrim lang).map Char.toLower) = true →
          langReplacement ws lang = fenceOriginal ws lang) ∧
        (knownLanguages.contains ((jsTrim lang).map Char.toLower) = false →
          jsTrim lang = [] →
          langReplacement ws lang = ws ++ [bq, bq, bq] ++ "markdown\n".toList) ∧
        (knownLanguages.contains ((jsTrim lang).map Char.toLower) = false →
          ((jsTrim lang).map Char.toLower = "n/a".toList ∨
            (jsTrim lang).map Char.toLower = "argdown".toList) →
          langReplacement ws lang = ws ++ [bq, bq, bq] ++ "markdown\n".toList) ∧
        (knownLanguages.contains ((jsTrim lang).map Char.toLower) = false →
          jsTrim lang ≠ [] →
          (jsTrim lang).map Char.toLower ≠ "n/a".toList →
          (jsTrim lang).map Char.toLower ≠ "argdown".toList →
          langReplacement ws lang = fenceOriginal ws lang)) ∧
      preprocessMDX "```argdown\n[Claim]: A\n```".toList =
        "```markdown\n[Claim]: A\n```".toList ∧
      reportedStats "```argdown\n[Claim]: A\n```".toList =
        some ⟨1, [(codeLangName, 1)]⟩ := by
  refine ⟨fun ws lang => ⟨?_, ?_, ?_, ?_⟩, by decide, by decide⟩
  · intro hknown
    have h' : (jsTrim lang).map Char.toLower ∈ knownLanguages := by
      simpa using hknown
    simp [langReplacement, h']
  · intro hknown hempty
    have h'' : ([] : List Char) ∉ knownLanguages := by decide
    simp [langReplacement, hempty, h'']
  · intro hknown hbad
    have hne : jsTrim lang ≠ [] := by
      intro h0
      rw [h0] at hbad
      exact absurd hbad (by decide)
    rcases hbad with hbad | hbad
    · have hbad' : List.map Char.toLower (jsTrim lang) = ['n', '/', 'a'] := hbad
      have hnk : (['n', '/', 'a'] : List Char) ∉ knownLanguages := by decide
      simp [langReplacement, hbad', hnk, hne]
    · have hbad' : List.map Char.toLower (jsTrim lang) =
          ['a', 'r', 'g', 'd', 'o', 'w', 'n'] := hbad
      have hak : (['a', 'r', 'g', 'd', 'o', 'w', 'n'] : List Char) ∉ knownLanguages := by
        decide
      have hna : List.map Char.toLower (jsTrim lang) ≠ ['n', '/', 'a'] := by
        rw [hbad']; decide
      simp [langReplacement, hbad', hak, hne, hna]
  · intro hknown hne hna harg
    have h' : (jsTrim lang).map Char.toLower ∉ knownLanguages := by
      simpa using hknown
    have hna' : List.map Char.toLower (jsTrim lang) ≠ ['n', '/', 'a'] := hna
    have harg' : List.map Char.toLower (jsTrim lang) ≠
        ['a', 'r', 'g', 'd', 'o', 'w', 'n'] := harg
    simp [langReplacement, h', hne, hna', harg']

/-- Witness for C4: the policy applied at concrete tags — `JS ` (known after
trim and lowering) kept, an all-whitespace tag replaced by `markdown`, `N/A`
replaced by `markdown`, and the unknown tag `foo` kept. -/
theorem c4_language_tag_policy_witness :
    langReplacement [] "JS ".toList = fenceOriginal [] "JS ".toList ∧
      langReplacement [' '] " ".toList =
        [' '] ++ [bq, bq, bq] ++ "markdown\n".toList ∧
      langReplacement [] "N/A".toList = [] ++ [bq, bq, bq] ++ "markdown\n".toList ∧
      langReplacement [] "foo".toList = fenceOriginal [] "foo".toList :=
  ⟨((c4_language_tag_policy.1 [] "JS ".toList).1) (by decide),
   ((c4_language_tag_policy.1 [' '] " ".toList).2.1) (by decide) (by decide),
   ((c4_language_tag_policy.1 [] "N/A".toList).2.2.1) (by decide) (Or.inl (by decide)),
   ((c4_language_tag_policy.1 [] "foo".toList).2.2.2) (by decide) (by decide)
     (by decide) (by decide)⟩

/-- C5: the whole-text normalization pass is a frame transformation: the
scan decomposes the input losslessly (the original texts of all chunks
concatenate back to the input), and the pass output is the concatenation in
which only fence-pattern matches met in the `opener` state are replaced by
the normalization callback, the scanner alternating opener/closer state on
each match; closing-fence matches and all raw characters are emitted
verbatim. -/
theorem c5_fence_pass_frame (md : List Char) :
    ((fenceChunks md).map chunkOriginal).flatten = md ∧
      (fenceRender false (fenceChunks md)).1 =
        (renderAlternating false (fenceChunks md)).flatten := by
  constructor
  · simpa [flushSt] using fenceScanAux_original md (.idle true)
  · exact fenceRender_eq_renderAlternating (fenceChunks md) false

/-- C7: segmenting and reassembling with the identity transform reproduces
the input exactly: the concatenation of span contents, in order, equals the
original text, and `preprocessMDX` with every rule disabled returns its
input unchanged. -/
theorem c7_segmentation_lossless (md : List Char) :
    ((segmentCode md).map Span.content).flatten = md ∧
      preprocessMDX md
        { disable := some [codeLangName, "less-than-digit", "less-than-space-digit",
            "greater-than-digit", "invalid-tag-opening", "numeric-only-tag"] } = md := by
  refine ⟨segmentCode_flatten md, ?_⟩
  have hactive :
      computeActive defaultPreprocessRules none
        (some [codeLangName, "less-than-digit", "less-than-space-digit",
          "greater-than-digit", "invalid-tag-opening", "numeric-only-tag"]) = [] := by
    rfl
  simp [preprocessMDX, preprocessFull, hactive, runSpans_nil_rules,
    segmentCode_flatten md]

theorem splitOnTriple_none_of_no_bq :
    ∀ s : List Char, bq ∉ s → splitOnTriple s = none := by
  intro s
  induction s with
  | nil => intro _; rfl
  | cons c1 rest ih =>
    intro h
    match rest, ih with
    | [], _ => rfl
    | [c2], _ => rfl
    | c2 :: c3 :: rest', ih =>
      rw [splitOnTriple]
      have hc1 : ¬(c1 = bq) := fun hc => h (hc ▸ List.mem_cons_self c1 _)
      rw [if_neg (by tauto)]
      rw [ih (fun hm => h (List.mem_cons_of_mem c1 hm))]

theorem inlineAt_none_of_tail_no_bq :
    ∀ c cs, bq ∉ cs → inlineAt (c :: cs) = none := by
  intro c cs h
  rw [inlineAt]
  by_cases hc : c = bq
  · rw [if_pos hc]
    cases hrest : cs.dropWhile fun d => !(d = bq) && !(d = '\n') with
    | nil => rfl
    | cons d rest' =>
      have hd : d ∈ cs := by
        have : d ∈ cs.dropWhile fun d => !(d = bq) && !(d = '\n') := by
          rw [hrest]; exact List.mem_cons_self d rest'
        exact List.dropWhile_subset _ this
      have hdbq : ¬(d = bq) := fun hdb => h (hdb ▸ hd)
      simp [hdbq]
  · rw [if_neg hc]

theorem tripleOrInline_none_of_no_bq_tail :
    ∀ c cs, bq ∉ cs → tripleOrInline (c :: cs) = none := by
  intro c cs h
  match c, cs, h with
  | c, [], h => simp [tripleOrInline, inlineAt]
  | c, [c2], h =>
    show inlineAt (c :: [c2]) = none
    exact inlineAt_none_of_tail_no_bq c [c2] h
  | c, c2 :: c3 :: rest, h =>
    rw [tripleOrInline]
    have hc2 : ¬(c2 = bq) := fun hc => h (hc ▸ List.mem_cons_self c2 _)
    rw [if_neg (by tauto)]
    exact inlineAt_none_of_tail_no_bq c (c2 :: c3 :: rest) h

theorem firstCode_none_of_no_bq_tail :
    ∀ s : List Char, (∀ c cs, s = c :: cs → bq ∉ cs) → firstCode s = none := by
  intro s
  induction s with
  | nil => intro _; rfl
  | cons c cs ih =>
    intro h
    rw [firstCode]
    rw [tripleOrInline_none_of_no_bq_tail c cs (h c cs rfl)]
    rw [ih ?_]
    intro c' cs' hcs
    have := h c cs rfl
    rw [hcs] at this
    exact fun hm => this (List.mem_cons_of_mem c' hm)

/-- A nonempty text whose tail contains no backtick (the head may be one or
more backticks opening an unterminated region) has no code-pattern match, so
`preserveCode` keeps it as one single rewritable span. -/
theorem segmentCode_single_of_no_bq_tail (c : Char) (cs : List Char)
    (h : bq ∉ cs) : segmentCode (c :: cs) = [⟨.text, c :: cs⟩] := by
  have hfc : firstCode (c :: cs) = none := by
    apply firstCode_none_of_no_bq_tail
    intro c' cs' hcs
    cases hcs
    exact h
  unfold segmentCode segmentF
  simp [hfc]

theorem inlineAt_cons_bq (rest : List Char) : inlineAt (bq :: bq :: rest) = none := by
  rw [inlineAt]
  rw [if_pos rfl]
  have hpred : (fun d => !(d = bq) && !(d = '\n')) bq = false := by simp
  rw [List.dropWhile_cons]
  simp only [hpred]
  simp [List.takeWhile_cons, hpred]

theorem firstCode_triple_unterminated (body : List Char) (h : bq ∉ body) :
    firstCode (bq :: bq :: bq :: body) = none := by
  rw [firstCode]
  have h1 : tripleOrInline (bq :: bq :: bq :: body) = none := by
    rw [tripleOrInline]
    rw [if_pos ⟨rfl, rfl, rfl⟩]
    rw [splitOnTriple_none_of_no_bq body h]
    exact inlineAt_cons_bq (bq :: body)
  rw [h1]
  rw [firstCode]
  have h2 : tripleOrInline (bq :: bq :: body) = none := by
    match body, h with
    | [], _ => decide
    | b :: rest, h =>
      rw [tripleOrInline]
      have hb : ¬(b = bq) := fun hbe => h (hbe ▸ List.mem_cons_self b rest)
      rw [if_neg (by tauto)]
      exact inlineAt_cons_bq (b :: rest)
  rw [h2]
  rw [firstCode]
  rw [tripleOrInline_none_of_no_bq_tail bq body h]
  rw [firstCode_none_of_no_bq_tail body ?_]
  intro c' cs' hcs
  rw [hcs] at h
  exact fun hm => h (List.mem_cons_of_mem c' hm)

theorem segmentCode_triple_unterminated (body : List Char) (h : bq ∉ body) :
    segmentCode (bq :: bq :: bq :: body) = [⟨.text, bq :: bq :: bq :: body⟩] := by
  unfold segmentCode segmentF
  simp [firstCode_triple_unterminated body h]

/-- C6: an unterminated fence opener (```` ``` ````) or inline opener
(`` ` ``) with no closing delimiter before the end of the input is segmented
as ordinary rewritable text — the whole input is one single text span, not a
protected region — and consequently the prose rewrite rules are applied to
it: running the span loop equals applying the rules to the entire input. -/
theorem c6_unterminated_is_rewritable (body : List Char) (h : bq ∉ body) :
    segmentCode (bq :: bq :: bq :: body) = [⟨.text, bq :: bq :: bq :: body⟩] ∧
      segmentCode (bq :: body) = [⟨.text, bq :: body⟩] ∧
      ∀ rules st,
        runSpans rules (segmentCode (bq :: bq :: bq :: body)) st =
          applyRules rules (bq :: bq :: bq :: body) st := by
  refine ⟨segmentCode_triple_unterminated body h,
    segmentCode_single_of_no_bq_tail bq body h, ?_⟩
  intro rules st
  rw [segmentCode_triple_unterminated body h]
  simp [runSpans]

/-- Witness for C6 at the concrete unterminated input `"```abc <5"`. -/
theorem c6_unterminated_is_rewritable_witness :
    segmentCode "```abc <5".toList = [⟨.text, "```abc <5".toList⟩] ∧
      segmentCode "`abc <5".toList = [⟨.text, "`abc <5".toList⟩] ∧
      ∀ rules st,
        runSpans rules (segmentCode "```abc <5".toList) st =
          applyRules rules "```abc <5".toList st :=
  c6_unterminated_is_rewritable "abc <5".toList (by decide)

/-! ### No-match scanner lemmas (for C2 and the amended C3) -/

theorem ltDigitRun_id : ∀ s, (ltDigitRun s).2 = 0 → (ltDigitRun s).1 = s := by
  intro s
  induction s with
  | nil => intro _; rfl
  | cons c cs ih =>
    intro h
    by_cases hm : (c = '<' && headIsDigit cs) = true
    · simp [ltDigitRun, hm] at h
    · simp [ltDigitRun, hm] at h ⊢
      exact ih h

theorem gtDigitRun_id : ∀ s p, (gtDigitRun p s).2 = 0 → (gtDigitRun p s).1 = s := by
  intro s
  induction s with
  | nil => intro _ _; rfl
  | cons c cs ih =>
    intro p h
    by_cases hm : (c = '>' && !gtBlocked p && gtLookahead cs) = true
    · simp [gtDigitRun, hm] at h
    · simp [gtDigitRun, hm] at h ⊢
      exact ih (some c) h

theorem ltSpaceRun_id :
    ∀ st s, (ltSpaceRun st s).2 = 0 →
      (ltSpaceRun st s).1 = ltSpacePending st ++ s := by
  intro st s
  induction st, s using ltSpaceRun.induct with
  | case1 => intro _; rfl
  | case2 wsRev => intro _; simp [ltSpaceRun, ltSpacePending]
  | case3 tail ih =>
    intro h
    rw [ltSpaceRun] at h ⊢
    simp at h ⊢
    simpa [ltSpacePending] using ih h
  | case4 c tail hc ih =>
    intro h
    rw [ltSpaceRun] at h ⊢
    simp [hc] at h ⊢
    simpa [ltSpacePending] using ih h
  | case5 c tail wsRev hws ih =>
    intro h
    rw [ltSpaceRun] at h ⊢
    simp [hws] at h ⊢
    have := ih h
    simp [ltSpacePending] at this ⊢
    simp [this]
  | case6 c tail wsRev hws hd ih =>
    intro h
    rw [ltSpaceRun] at h
    simp [hws, hd] at h
  | case7 tail wsRev hws hd ih =>
    intro h
    rw [ltSpaceRun] at h ⊢
    simp [hws, hd] at h ⊢
    have := ih h
    simp [ltSpacePending] at this ⊢
    simp [this]
  | case8 c tail wsRev hws hd hc ih =>
    intro h
    rw [ltSpaceRun] at h ⊢
    simp [hws, hd, hc] at h ⊢
    have := ih h
    simp [ltSpacePending] at this ⊢
    simp [this]

theorem invalidTagRun_id :
    ∀ s st, (invalidTagRun st s).2 = 0 →
      (invalidTagRun st s).1 = r4Pending st ++ s := by
  intro s
  induction s with
  | nil =>
    intro st h
    match st, h with
    | .norm, _ => rfl
    | .lt, _ => rfl
    | .ltSlash, _ => rfl
    | .tag slash accRev, h => simp [invalidTagRun] at h
  | cons c cs ih =>
    intro st h
    match st with
    | .norm =>
      by_cases hc : c = '<'
      · subst hc
        rw [invalidTagRun] at h ⊢
        simp at h ⊢
        simpa [r4Pending] using ih .lt h
      · rw [invalidTagRun] at h ⊢
        simp [hc] at h ⊢
        simpa [r4Pending] using ih .norm h
    | .lt =>
      by_cases hsl : c = '/'
      · subst hsl
        rw [invalidTagRun] at h ⊢
        simp at h ⊢
        simpa [r4Pending] using ih .ltSlash h
      · by_cases hd : c.isDigit
        · rw [invalidTagRun] at h ⊢
          simp [hsl, hd] at h ⊢
          have := ih (.tag false [c]) h
          simp [r4Pending] at this ⊢
          simp [this]
        · by_cases hc : c = '<'
          · subst hc
            rw [invalidTagRun] at h ⊢
            simp [hd] at h ⊢
            simpa [r4Pending] using ih .lt h
          · rw [invalidTagRun] at h ⊢
            simp [hsl, hd, hc] at h ⊢
            simpa [r4Pending] using ih .norm h
    | .ltSlash =>
      by_cases hd : c.isDigit
      · rw [invalidTagRun] at h ⊢
        simp [hd] at h ⊢
        have := ih (.tag true [c]) h
        simp [r4Pending] at this ⊢
        simp [this]
      · by_cases hc : c = '<'
        · subst hc
          rw [invalidTagRun] at h ⊢
          simp [hd] at h ⊢
          simpa [r4Pending] using ih .lt h
        · rw [invalidTagRun] at h ⊢
          simp [hd, hc] at h ⊢
          simpa [r4Pending] using ih .norm h
    | .tag slash accRev =>
      by_cases ht : (!(c = '>') && !isJsWhitespace c) = true
      · rw [invalidTagRun] at h ⊢
        simp [ht] at h ⊢
        have := ih (.tag slash (c :: accRev)) h
        simp [r4Pending] at this ⊢
        simp [this]
      · rw [invalidTagRun] at h
        simp [ht] at h

theorem numTagRun_id :
    ∀ s st, (numTagRun st s).2 = 0 →
      (numTagRun st s).1 = r5Pending st ++ s := by
  intro s
  induction s with
  | nil =>
    intro st h
    match st with
    | .norm => rfl
    | .lt => rfl
    | .digs accRev => simp [numTagRun, r5Pending]
  | cons c cs ih =>
    intro st h
    match st with
    | .norm =>
      by_cases hc : c = '<'
      · subst hc
        rw [numTagRun] at h ⊢
        simp at h ⊢
        simpa [r5Pending] using ih .lt h
      · rw [numTagRun] at h ⊢
        simp [hc] at h ⊢
        simpa [r5Pending] using ih .norm h
    | .lt =>
      by_cases hd : c.isDigit
      · rw [numTagRun] at h ⊢
        simp [hd] at h ⊢
        have := ih (.digs [c]) h
        simp [r5Pending] at this ⊢
        simp [this]
      · by_cases hc : c = '<'
        · subst hc
          rw [numTagRun] at h ⊢
          simp [hd] at h ⊢
          simpa [r5Pending] using ih .lt h
        · rw [numTagRun] at h ⊢
          simp [hd, hc] at h ⊢
          simpa [r5Pending] using ih .norm h
    | .digs accRev =>
      by_cases hd : c.isDigit
      · rw [numTagRun] at h ⊢
        simp [hd] at h ⊢
        have := ih (.digs (c :: accRev)) h
        simp [r5Pending] at this ⊢
        simp [this]
      · by_cases hg : c = '>'
        · subst hg
          rw [numTagRun] at h
          simp [hd] at h
        · by_cases hc : c = '<'
          · subst hc
            rw [numTagRun] at h ⊢
            simp [hd] at h ⊢
            simpa [r5Pending] using ih .lt h
          · rw [numTagRun] at h ⊢
            simp [hd, hg, hc] at h ⊢
            simpa [r5Pending] using ih .norm h

theorem invalidTagRun_tag_pos :
    ∀ s slash accRev, 1 ≤ (invalidTagRun (.tag slash accRev) s).2 := by
  intro s
  induction s with
  | nil => intro slash accRev; simp [invalidTagRun]
  | cons c cs ih =>
    intro slash accRev
    by_cases ht : (!(c = '>') && !isJsWhitespace c) = true
    · rw [invalidTagRun]
      simp [ht]
      exact ih slash (c :: accRev)
    · rw [invalidTagRun]
      simp [ht]

theorem gtDigitRun_congr :
    ∀ s p q, gtBlocked p = gtBlocked q → gtDigitRun p s = gtDigitRun q s := by
  intro s
  induction s with
  | nil => intro p q _; rfl
  | cons c cs ih =>
    intro p q h
    rw [gtDigitRun, gtDigitRun, h]

theorem headIsDigit_append_mono (x y : List Char) (h : headIsDigit x = true) :
    headIsDigit (x ++ y) = true := by
  cases x with
  | nil => simp [headIsDigit] at h
  | cons d x' => simpa [headIsDigit] using h

theorem gtLookahead_append_mono (x y : List Char) (h : gtLookahead x = true) :
    gtLookahead (x ++ y) = true := by
  cases x with
  | nil => simp [gtLookahead] at h
  | cons d x' =>
    simp [gtLookahead] at h ⊢
    rcases h with h | ⟨hws, hd⟩
    · exact Or.inl h
    · exact Or.inr ⟨hws, headIsDigit_append_mono x' y hd⟩

theorem ltDigitRun_cnt_suffix :
    ∀ x y, (ltDigitRun (x ++ y)).2 = 0 → (ltDigitRun y).2 = 0 := by
  intro x
  induction x with
  | nil => intro y h; exact h
  | cons c x' ih =>
    intro y h
    by_cases hm : (c = '<' && headIsDigit (x' ++ y)) = true
    · simp [ltDigitRun, hm] at h
    · simp [ltDigitRun, hm] at h
      exact ih y h

theorem ltDigitRun_cons_cnt (c : Char) (cs : List Char) :
    (ltDigitRun (c :: cs)).2 =
      if (c = '<' && headIsDigit cs) = true then (ltDigitRun cs).2 + 1
      else (ltDigitRun cs).2 := by
  by_cases hm : (c = '<' && headIsDigit cs) = true <;> simp [ltDigitRun, hm]

theorem ltDigitRun_cnt_prefix :
    ∀ x y, (ltDigitRun x).2 ≤ (ltDigitRun (x ++ y)).2 := by
  intro x
  induction x with
  | nil => intro y; simp [ltDigitRun]
  | cons c x' ih =>
    intro y
    rw [List.cons_append, ltDigitRun_cons_cnt, ltDigitRun_cons_cnt]
    have hle := ih y
    match x' with
    | [] =>
      have h0 : headIsDigit ([] : List Char) = false := rfl
      have hz : (ltDigitRun ([] : List Char)).2 = 0 := rfl
      simp [h0, hz]
    | d :: x'' =>
      have hg : headIsDigit ((d :: x'') ++ y) = headIsDigit (d :: x'') := by
        simp [headIsDigit]
      simp only [List.cons_append] at hg hle ⊢
      rw [hg]
      by_cases hG : (c = '<' && headIsDigit (d :: x'')) = true
      · simp only [hG, if_pos]
        omega
      · simp only [hG]
        simp only [Bool.false_eq_true, if_false]
        omega

theorem ltSpaceRun_cnt_zero_suffix :
    ∀ x st y, (ltSpaceRun st (x ++ y)).2 = 0 → x.getLast? = some bq →
      (ltSpaceRun none y).2 = 0 := by
  intro x
  induction x with
  | nil => intro st y h hlast; simp at hlast
  | cons c x' ih =>
    intro st y h hlast
    simp only [List.cons_append] at h
    cases x' with
    | nil =>
      have hc : c = bq := by simpa using hlast
      subst hc
      have hws := bq_not_ws
      have hdig : bq.isDigit = false := by decide
      have hlt : ¬(bq = '<') := by decide
      match st with
      | none =>
        rw [ltSpaceRun] at h
        simpa [hlt] using h
      | some ws =>
        rw [ltSpaceRun] at h
        simpa [hws, hdig, hlt] using h
    | cons c2 x'' =>
      have hlast' : (c2 :: x'').getLast? = some bq := by
        rwa [List.getLast?_cons_cons] at hlast
      match st with
      | none =>
        by_cases hc : c = '<'
        · subst hc
          rw [ltSpaceRun] at h
          simp at h
          exact ih _ y h hlast'
        · rw [ltSpaceRun] at h
          simp [hc] at h
          exact ih _ y h hlast'
      | some ws =>
        by_cases hws : isJsWhitespace c
        · rw [ltSpaceRun] at h
          simp [hws] at h
          exact ih _ y h hlast'
        · by_cases hd : (c.isDigit && !ws.isEmpty) = true
          · rw [ltSpaceRun] at h
            simp [hws, hd] at h
          · by_cases hc : c = '<'
            · subst hc
              rw [ltSpaceRun] at h
              simp [hws, hd] at h
              exact ih _ y h hlast'
            · rw [ltSpaceRun] at h
              simp [hws, hd, hc] at h
              exact ih _ y h hlast'

theorem ltSpaceRun_cnt_prefix :
    ∀ x st y, (ltSpaceRun st x).2 ≤ (ltSpaceRun st (x ++ y)).2 := by
  intro x
  induction x with
  | nil =>
    intro st y
    match st with
    | none => simp [ltSpaceRun]
    | some ws => simp [ltSpaceRun]
  | cons c x' ih =>
    intro st y
    simp only [List.cons_append]
    match st with
    | none =>
      by_cases hc : c = '<'
      · subst hc
        simp only [ltSpaceRun, if_pos rfl]
        exact ih _ y
      · simp [ltSpaceRun, hc]
        exact ih _ y
    | some ws =>
      by_cases hws : isJsWhitespace c
      · simp only [ltSpaceRun, hws, if_pos rfl]
        exact ih _ y
      · by_cases hd : (c.isDigit && !ws.isEmpty) = true
        · simp [ltSpaceRun, hws, hd]
          exact ih _ y
        · by_cases hc : c = '<'
          · subst hc
            simp [ltSpaceRun, hws, hd]
            exact ih _ y
          · simp [ltSpaceRun, hws, hd, hc]
            exact ih _ y

theorem gtDigitRun_cnt_zero_suffix :
    ∀ x p y, (gtDigitRun p (x ++ y)).2 = 0 → x.getLast? = some bq →
      (gtDigitRun none y).2 = 0 := by
  intro x
  induction x with
  | nil => intro p y h hlast; simp at hlast
  | cons c x' ih =>
    intro p y h hlast
    simp only [List.cons_append] at h
    cases x' with
    | nil =>
      have hc : c = bq := by simpa using hlast
      subst hc
      have hbq : ¬(bq = '>') := by decide
      rw [gtDigitRun] at h
      simp [hbq] at h
      rw [gtDigitRun_congr y none (some bq) (by decide)]
      exact h
    | cons c2 x'' =>
      have hlast' : (c2 :: x'').getLast? = some bq := by
        rwa [List.getLast?_cons_cons] at hlast
      rw [gtDigitRun] at h
      simp only [List.cons_append] at h
      split at h
      · simp at h
      · simp at h
        exact ih (some c) y h hlast'

theorem gtDigitRun_cnt_prefix :
    ∀ x p y, (gtDigitRun p x).2 ≤ (gtDigitRun p (x ++ y)).2 := by
  intro x
  induction x with
  | nil => intro p y; simp [gtDigitRun]
  | cons c x' ih =>
    intro p y
    simp only [List.cons_append]
    by_cases hL : (c = '>' && !gtBlocked p && gtLookahead x') = true
    · have hR : (c = '>' && !gtBlocked p && gtLookahead (x' ++ y)) = true := by
        simp only [Bool.and_eq_true] at hL ⊢
        exact ⟨hL.1, gtLookahead_append_mono x' y hL.2⟩
      rw [gtDigitRun, gtDigitRun]
      simp [hL, hR]
      exact ih (some c) y
    · by_cases hR : (c = '>' && !gtBlocked p && gtLookahead (x' ++ y)) = true
      · rw [gtDigitRun, gtDigitRun]
        simp [hL, hR]
        have := ih (some c) y
        omega
      · rw [gtDigitRun, gtDigitRun]
        simp [hL, hR]
        exact ih (some c) y

theorem invalidTagRun_cnt_zero_suffix :
    ∀ x st y, (invalidTagRun st (x ++ y)).2 = 0 → x.getLast? = some bq →
      (invalidTagRun .norm y).2 = 0 := by
  intro x
  induction x with
  | nil => intro st y h hlast; simp at hlast
  | cons c x' ih =>
    intro st y h hlast
    simp only [List.cons_append] at h
    cases x' with
    | nil =>
      have hc : c = bq := by simpa using hlast
      subst hc
      match st with
      | .norm =>
        rw [invalidTagRun] at h
        simpa [show ¬(bq = '<') from by decide] using h
      | .lt =>
        rw [invalidTagRun] at h
        simpa [show ¬(bq = '/') from by decide, show bq.isDigit = false from by decide,
          show ¬(bq = '<') from by decide] using h
      | .ltSlash =>
        rw [invalidTagRun] at h
        simpa [show bq.isDigit = false from by decide,
          show ¬(bq = '<') from by decide] using h
      | .tag slash accRev =>
        rw [invalidTagRun] at h
        simp [show (!(bq = '>') && !isJsWhitespace bq) = true from by decide] at h
        have := invalidTagRun_tag_pos y slash (bq :: accRev)
        omega
    | cons c2 x'' =>
      have hlast' : (c2 :: x'').getLast? = some bq := by
        rwa [List.getLast?_cons_cons] at hlast
      match st with
      | .norm =>
        by_cases hc : c = '<'
        · subst hc
          rw [invalidTagRun] at h
          simp at h
          exact ih _ y h hlast'
        · rw [invalidTagRun] at h
          simp [hc] at h
          exact ih _ y h hlast'
      | .lt =>
        by_cases hsl : c = '/'
        · subst hsl
          rw [invalidTagRun] at h
          simp at h
          exact ih _ y h hlast'
        · by_cases hd : c.isDigit
          · rw [invalidTagRun] at h
            simp [hsl, hd] at h
            exact ih _ y h hlast'
          · by_cases hc : c = '<'
            · subst hc
              rw [invalidTagRun] at h
              simp [hd] at h
              exact ih _ y h hlast'
            · rw [invalidTagRun] at h
              simp [hsl, hd, hc] at h
              exact ih _ y h hlast'
      | .ltSlash =>
        by_cases hd : c.isDigit
        · rw [invalidTagRun] at h
          simp [hd] at h
          exact ih _ y h hlast'
        · by_cases hc : c = '<'
          · subst hc
            rw [invalidTagRun] at h
            simp [hd] at h
            exact ih _ y h hlast'
          · rw [invalidTagRun] at h
            simp [hd, hc] at h
            exact ih _ y h hlast'
      | .tag slash accRev =>
        by_cases ht : (!(c = '>') && !isJsWhitespace c) = true
        · rw [invalidTagRun] at h
          simp [ht] at h
          exact ih _ y h hlast'
        · rw [invalidTagRun] at h
          simp [ht] at h

theorem invalidTagRun_cnt_prefix :
    ∀ x st y, (invalidTagRun st x).2 ≤ (invalidTagRun st (x ++ y)).2 := by
  intro x
  induction x with
  | nil =>
    intro st y
    match st with
    | .norm => simp [invalidTagRun]
    | .lt => simp [invalidTagRun]
    | .ltSlash => simp [invalidTagRun]
    | .tag slash accRev =>
      simp [invalidTagRun]
      exact invalidTagRun_tag_pos y slash accRev
  | cons c x' ih =>
    intro st y
    simp only [List.cons_append]
    match st with
    | .norm =>
      by_cases hc : c = '<'
      · subst hc
        simp only [invalidTagRun, if_pos rfl]
        exact ih _ y
      · simp [invalidTagRun, hc]
        exact ih _ y
    | .lt =>
      by_cases hsl : c = '/'
      · subst hsl
        simp only [invalidTagRun, if_pos rfl]
        exact ih _ y
      · by_cases hd : c.isDigit
        · simp [invalidTagRun, hsl, hd]
          exact ih _ y
        · by_cases hc : c = '<'
          · subst hc
            simp [invalidTagRun, hd]
            exact ih _ y
          · simp [invalidTagRun, hsl, hd, hc]
            exact ih _ y
    | .ltSlash =>
      by_cases hd : c.isDigit
      · simp [invalidTagRun, hd]
        exact ih _ y
      · by_cases hc : c = '<'
        · subst hc
          simp [invalidTagRun, hd]
          exact ih _ y
        · simp [invalidTagRun, hd, hc]
          exact ih _ y
    | .tag slash accRev =>
      by_cases ht : (!(c = '>') && !isJsWhitespace c) = true
      · simp [invalidTagRun, ht]
        exact ih _ y
      · simp [invalidTagRun, ht]
        exact ih _ y

theorem numTagRun_cnt_zero_suffix :
    ∀ x st y, (numTagRun st (x ++ y)).2 = 0 → x.getLast? = some bq →
      (numTagRun .norm y).2 = 0 := by
  intro x
  induction x with
  | nil => intro st y h hlast; simp at hlast
  | cons c x' ih =>
    intro st y h hlast
    simp only [List.cons_append] at h
    cases x' with
    | nil =>
      have hc : c = bq := by simpa using hlast
      subst hc
      match st with
      | .norm =>
        rw [numTagRun] at h
        simpa [show ¬(bq = '<') from by decide] using h
      | .lt =>
        rw [numTagRun] at h
        simpa [show bq.isDigit = false from by decide,
          show ¬(bq = '<') from by decide] using h
      | .digs accRev =>
        rw [numTagRun] at h
        simpa [show bq.isDigit = false from by decide, show ¬(bq = '>') from by decide,
          show ¬(bq = '<') from by decide] using h
    | cons c2 x'' =>
      have hlast' : (c2 :: x'').getLast? = some bq := by
        rwa [List.getLast?_cons_cons] at hlast
      match st with
      | .norm =>
        by_cases hc : c = '<'
        · subst hc
          rw [numTagRun] at h
          simp at h
          exact ih _ y h hlast'
        · rw [numTagRun] at h
          simp [hc] at h
          exact ih _ y h hlast'
      | .lt =>
        by_cases hd : c.isDigit
        · rw [numTagRun] at h
          simp [hd] at h
          exact ih _ y h hlast'
        · by_cases hc : c = '<'
          · subst hc
            rw [numTagRun] at h
            simp [hd] at h
            exact ih _ y h hlast'
          · rw [numTagRun] at h
            simp [hd, hc] at h
            exact ih _ y h hlast'
      | .digs accRev =>
        by_cases hd : c.isDigit
        · rw [numTagRun] at h
          simp [hd] at h
          exact ih _ y h hlast'
        · by_cases hg : c = '>'
          · subst hg
            rw [numTagRun] at h
            simp [hd] at h
          · by_cases hc : c = '<'
            · subst hc
              rw [numTagRun] at h
              simp [hd] at h
              exact ih _ y h hlast'
            · rw [numTagRun] at h
              simp [hd, hg, hc] at h
              exact ih _ y h hlast'

theorem numTagRun_cnt_prefix :
    ∀ x st y, (numTagRun st x).2 ≤ (numTagRun st (x ++ y)).2 := by
  intro x
  induction x with
  | nil =>
    intro st y
    match st with
    | .norm => simp [numTagRun]
    | .lt => simp [numTagRun]
    | .digs accRev => simp [numTagRun]
  | cons c x' ih =>
    intro st y
    simp only [List.cons_append]
    match st with
    | .norm =>
      by_cases hc : c = '<'
      · subst hc
        simp only [numTagRun, if_pos rfl]
        exact ih _ y
      · simp [numTagRun, hc]
        exact ih _ y
    | .lt =>
      by_cases hd : c.isDigit
      · simp [numTagRun, hd]
        exact ih _ y
      · by_cases hc : c = '<'
        · subst hc
          simp [numTagRun, hd]
          exact ih _ y
        · simp [numTagRun, hd, hc]
          exact ih _ y
    | .digs accRev =>
      by_cases hd : c.isDigit
      · simp [numTagRun, hd]
        exact ih _ y
      · by_cases hg : c = '>'
        · subst hg
          simp [numTagRun, hd]
          exact ih _ y
        · by_cases hc : c = '<'
          · subst hc
            simp [numTagRun, hd]
            exact ih _ y
          · simp [numTagRun, hd, hg, hc]
            exact ih _ y

theorem pair_eq_of (p : List Char × Nat) (t : List Char)
    (h1 : p.1 = t) (h2 : p.2 = 0) : p = (t, 0) := by
  cases p
  simp_all

theorem ltDigit_cnt_zero_between (a t b : List Char)
    (h : (ltDigitRun (a ++ t ++ b)).2 = 0) : (ltDigitRun t).2 = 0 := by
  have h' : (ltDigitRun (t ++ b)).2 = 0 := by
    apply ltDigitRun_cnt_suffix a (t ++ b)
    simpa [List.append_assoc] using h
  have := ltDigitRun_cnt_prefix t b
  omega

theorem ltSpace_cnt_zero_between (a t b : List Char)
    (h : (ltSpaceRun none (a ++ t ++ b)).2 = 0)
    (ha : a = [] ∨ a.getLast? = some bq) : (ltSpaceRun none t).2 = 0 := by
  have h' : (ltSpaceRun none (t ++ b)).2 = 0 := by
    rcases ha with ha | ha
    · subst ha; simpa using h
    · exact ltSpaceRun_cnt_zero_suffix a none (t ++ b)
        (by simpa [List.append_assoc] using h) ha
  have := ltSpaceRun_cnt_prefix t none b
  omega

theorem gtDigit_cnt_zero_between (a t b : List Char)
    (h : (gtDigitRun none (a ++ t ++ b)).2 = 0)
    (ha : a = [] ∨ a.getLast? = some bq) : (gtDigitRun none t).2 = 0 := by
  have h' : (gtDigitRun none (t ++ b)).2 = 0 := by
    rcases ha with ha | ha
    · subst ha; simpa using h
    · exact gtDigitRun_cnt_zero_suffix a none (t ++ b)
        (by simpa [List.append_assoc] using h) ha
  have := gtDigitRun_cnt_prefix t none b
  omega

theorem invalidTag_cnt_zero_between (a t b : List Char)
    (h : (invalidTagRun .norm (a ++ t ++ b)).2 = 0)
    (ha : a = [] ∨ a.getLast? = some bq) : (invalidTagRun .norm t).2 = 0 := by
  have h' : (invalidTagRun .norm (t ++ b)).2 = 0 := by
    rcases ha with ha | ha
    · subst ha; simpa using h
    · exact invalidTagRun_cnt_zero_suffix a .norm (t ++ b)
        (by simpa [List.append_assoc] using h) ha
  have := invalidTagRun_cnt_prefix t .norm b
  omega

theorem numTag_cnt_zero_between (a t b : List Char)
    (h : (numTagRun .norm (a ++ t ++ b)).2 = 0)
    (ha : a = [] ∨ a.getLast? = some bq) : (numTagRun .norm t).2 = 0 := by
  have h' : (numTagRun .norm (t ++ b)).2 = 0 := by
    rcases ha with ha | ha
    · subst ha; simpa using h
    · exact numTagRun_cnt_zero_suffix a .norm (t ++ b)
        (by simpa [List.append_assoc] using h) ha
  have := numTagRun_cnt_prefix t .norm b
  omega

theorem segmentF_text_decomp :
    ∀ fuel s, s.length ≤ fuel → ∀ sp ∈ segmentF fuel s, sp.kind = SpanKind.text →
      ∃ a b, a ++ sp.content ++ b = s ∧ (a = [] ∨ a.getLast? = some bq) := by
  intro fuel
  induction fuel with
  | zero =>
    intro s hs sp hsp _
    have : s = [] := List.length_eq_zero.mp (Nat.le_zero.mp hs)
    subst this
    simp [segmentF] at hsp
  | succ n ih =>
    intro s hs sp hsp hkind
    cases hfc : firstCode s with
    | none =>
      rw [segmentF, hfc] at hsp
      by_cases he : s.isEmpty
      · simp [he] at hsp
      · simp [he] at hsp
        subst hsp
        exact ⟨[], [], by simp, Or.inl rfl⟩
    | some q =>
      obtain ⟨t, code, rest⟩ := q
      rw [segmentF, hfc] at hsp
      have hspec := firstCode_spec s t code rest hfc
      have hlen : rest.length ≤ n := by
        have := congrArg List.length hspec.1
        simp [List.length_append] at this
        have hc : 1 ≤ code.length := by
          cases code with
          | nil => exact absurd rfl hspec.2.1
          | cons _ _ => simp
        omega
      rcases List.mem_append.mp hsp with hin | hin
      · by_cases ht : t.isEmpty
        · simp [ht] at hin
        · simp [ht] at hin
          subst hin
          exact ⟨[], code ++ rest, by simpa [List.append_assoc] using hspec.1, Or.inl rfl⟩
      · rcases List.mem_cons.mp hin with hin | hin
        · rw [hin] at hkind
          simp at hkind
        · obtain ⟨a', b', hab, ha'⟩ := ih rest hlen sp hin hkind
          refine ⟨t ++ code ++ a', b', ?_, Or.inr ?_⟩
          · rw [← hspec.1, ← hab]
            simp [List.append_assoc]
          · rcases ha' with ha' | ha'
            · subst ha'
              simp [List.getLast?_append, hspec.2.2]
            · simp [List.getLast?_append, ha']

theorem fenceRender_all_raw :
    ∀ chunks : List FChunk, ∀ inside, chunks.all isRawChunk = true →
      fenceRender inside chunks = ((chunks.map chunkOriginal).flatten, 0) := by
  intro chunks
  induction chunks with
  | nil => intro _ _; rfl
  | cons ch rest ih =>
    intro inside h
    match ch with
    | .raw c =>
      simp only [List.all_cons, Bool.and_eq_true] at h
      simp [fenceRender, chunkOriginal, ih inside h.2]
    | .fence ws lang =>
      simp only [List.all_cons, Bool.and_eq_true] at h
      exact absurd h.1 (by simp [isRawChunk])

/-- Abbreviation for the hypothesis that no prose-rule pattern and no
fence pattern matches the given text. -/
def noRuleMatches (s : List Char) : Prop :=
  (fenceChunks s).all isRawChunk = true ∧
    (ltDigitRun s).2 = 0 ∧ (ltSpaceRun none s).2 = 0 ∧
    (gtDigitRun none s).2 = 0 ∧ (invalidTagRun .norm s).2 = 0 ∧
    (numTagRun .norm s).2 = 0

theorem applyRules_prose_id (t : List Char) (st : TransformerStats)
    (h1 : (ltDigitRun t).2 = 0) (h2 : (ltSpaceRun none t).2 = 0)
    (h3 : (gtDigitRun none t).2 = 0) (h4 : (invalidTagRun .norm t).2 = 0)
    (h5 : (numTagRun .norm t).2 = 0) :
    applyRules
      [⟨"less-than-digit", ltDigitRun⟩, ⟨"less-than-space-digit", ltSpaceRun none⟩,
        ⟨"greater-than-digit", gtDigitRun none⟩,
        ⟨"invalid-tag-opening", invalidTagRun .norm⟩,
        ⟨"numeric-only-tag", numTagRun .norm⟩] t st = (t, st) := by
  have e1 := pair_eq_of (ltDigitRun t) t (ltDigitRun_id t h1) h1
  have e2 := pair_eq_of (ltSpaceRun none t) t
    (by simpa [ltSpacePending] using ltSpaceRun_id none t h2) h2
  have e3 := pair_eq_of (gtDigitRun none t) t (gtDigitRun_id t none h3) h3
  have e4 := pair_eq_of (invalidTagRun .norm t) t
    (by simpa [r4Pending] using invalidTagRun_id t .norm h4) h4
  have e5 := pair_eq_of (numTagRun .norm t) t
    (by simpa [r5Pending] using numTagRun_id t .norm h5) h5
  simp [applyRules, e1, e2, e3, e4, e5]

theorem runSpans_prose_id :
    ∀ (spans : List Span) (st : TransformerStats),
      (∀ sp ∈ spans, sp.kind = SpanKind.text →
        (ltDigitRun sp.content).2 = 0 ∧ (ltSpaceRun none sp.content).2 = 0 ∧
        (gtDigitRun none sp.content).2 = 0 ∧ (invalidTagRun .norm sp.content).2 = 0 ∧
        (numTagRun .norm sp.content).2 = 0) →
      runSpans
        [⟨"less-than-digit", ltDigitRun⟩, ⟨"less-than-space-digit", ltSpaceRun none⟩,
          ⟨"greater-than-digit", gtDigitRun none⟩,
          ⟨"invalid-tag-opening", invalidTagRun .norm⟩,
          ⟨"numeric-only-tag", numTagRun .norm⟩] spans st =
        ((spans.map Span.content).flatten, st) := by
  intro spans
  induction spans with
  | nil => intro st _; rfl
  | cons sp rest ih =>
    intro st hall
    have hrest : ∀ sp' ∈ rest, sp'.kind = SpanKind.text →
        (ltDigitRun sp'.content).2 = 0 ∧ (ltSpaceRun none sp'.content).2 = 0 ∧
        (gtDigitRun none sp'.content).2 = 0 ∧ (invalidTagRun .norm sp'.content).2 = 0 ∧
        (numTagRun .norm sp'.content).2 = 0 :=
      fun sp' h' => hall sp' (List.mem_cons_of_mem sp h')
    match sp with
    | ⟨.code, content⟩ =>
      rw [runSpans]
      simp only []
      rw [ih st hrest]
      simp
    | ⟨.text, content⟩ =>
      have hsp := hall ⟨.text, content⟩ (List.mem_cons_self _ _) rfl
      rw [runSpans]
      simp only []
      rw [applyRules_prose_id content st hsp.1 hsp.2.1 hsp.2.2.1 hsp.2.2.2.1 hsp.2.2.2.2]
      rw [ih st hrest]
      simp

theorem preprocess_fixed_of_noRuleMatches (md : List Char)
    (h : noRuleMatches md) : preprocessMDX md {} = md := by
  obtain ⟨hfence, h1, h2, h3, h4, h5⟩ := h
  have hmd : ((fenceChunks md).map chunkOriginal).flatten = md := by
    simpa [flushSt] using fenceScanAux_original md (.idle true)
  have hfr : fenceRender false (fenceChunks md) = (md, 0) := by
    rw [fenceRender_all_raw (fenceChunks md) false hfence, hmd]
  have hspans : ∀ sp ∈ segmentCode md, sp.kind = SpanKind.text →
      (ltDigitRun sp.content).2 = 0 ∧ (ltSpaceRun none sp.content).2 = 0 ∧
      (gtDigitRun none sp.content).2 = 0 ∧ (invalidTagRun .norm sp.content).2 = 0 ∧
      (numTagRun .norm sp.content).2 = 0 := by
    intro sp hsp hk
    obtain ⟨a, b, hab, ha⟩ := segmentF_text_decomp md.length md le_rfl sp hsp hk
    rw [← hab] at h1 h2 h3 h4 h5
    exact ⟨ltDigit_cnt_zero_between a _ b h1, ltSpace_cnt_zero_between a _ b h2 ha,
      gtDigit_cnt_zero_between a _ b h3 ha, invalidTag_cnt_zero_between a _ b h4 ha,
      numTag_cnt_zero_between a _ b h5 ha⟩
  have hact : computeActive defaultPreprocessRules none none = defaultPreprocessRules := rfl
  have hany : (defaultPreprocessRules.any fun r => r.name = codeLangName) = true := rfl
  have hothers : (defaultPreprocessRules.filter fun r => !(r.name = codeLangName)) =
      [⟨"less-than-digit", ltDigitRun⟩, ⟨"less-than-space-digit", ltSpaceRun none⟩,
        ⟨"greater-than-digit", gtDigitRun none⟩,
        ⟨"invalid-tag-opening", invalidTagRun .norm⟩,
        ⟨"numeric-only-tag", numTagRun .norm⟩] := rfl
  show (preprocessFull md {}).1 = md
  rw [preprocessFull]
  simp only [hact, hany, hothers, hfr, if_true]
  simp only [show ¬((0 : Nat) > 0) from by omega, if_false]
  rw [runSpans_prose_id (segmentCode md) ⟨0, []⟩ hspans]
  simp [segmentCode_flatten]

/-- C2: for every input text in which no active rule's pattern matches
(under default options: the fence pattern finds no match, and each prose
rule makes zero replacements), `preprocessMDX` returns its input unchanged
byte for byte. -/
theorem c2_no_match_identity (md : List Char) (h : noRuleMatches md) :
    preprocessMDX md {} = md :=
  preprocess_fixed_of_noRuleMatches md h

/-- Witness for C2 at a concrete input without matches (covering also the
empty and whitespace-only cases via the fence/prose predicates). -/
theorem c2_no_match_identity_witness :
    preprocessMDX "Normal markdown text".toList = "Normal markdown text".toList ∧
      preprocessMDX "".toList = "".toList ∧
      preprocessMDX "  \t ".toList = "  \t ".toList :=
  ⟨c2_no_match_identity "Normal markdown text".toList
      ⟨by decide, by decide, by decide, by decide, by decide, by decide⟩,
   c2_no_match_identity "".toList
      ⟨by decide, by decide, by decide, by decide, by decide, by decide⟩,
   c2_no_match_identity "  \t ".toList
      ⟨by decide, by decide, by decide, by decide, by decide, by decide⟩⟩

/-- C3 counterexample: idempotence fails on the code.  For the input
`"</5x</5x"`, the first pass's `invalid-tag-opening` match greedily consumes
`x</5x` into its tag content (`[^>\s]*` accepts `<`), and the replacement
copies that content verbatim, so the embedded `</5x` is reproduced
unprocessed; the second pass then rewrites it:
`preprocess("</5x</5x") = "&lt;/5x</5x"` but
`preprocess(preprocess("</5x</5x")) = "&lt;/5x&lt;/5x"`. -/
theorem c3_idempotence_counterexample :
    preprocessMDX (preprocessMDX "</5x</5x".toList) ≠
      preprocessMDX "</5x</5x".toList := by
  decide

/-- C3 amended: the output of one pass is a fixed point whenever no trigger
pattern matches that output — escaped entities themselves no longer match
any trigger pattern — but this is not the case for every input, because a
replacement can copy unprocessed trigger text out of its capture group
(counterexample `"</5x</5x"`). -/
theorem c3_amended_fixed_point (md : List Char)
    (h : noRuleMatches (preprocessMDX md {})) :
    preprocessMDX (preprocessMDX md {}) {} = preprocessMDX md {} :=
  preprocess_fixed_of_noRuleMatches (preprocessMDX md {}) h

/-- Witness for the amended C3 at `"- <5 min"`, whose one-pass output
`"- &lt;5 min"` matches no trigger pattern. -/
theorem c3_amended_fixed_point_witness :
    preprocessMDX (preprocessMDX "- <5 min".toList {}) {} =
      preprocessMDX "- <5 min".toList {} :=
  c3_amended_fixed_point "- <5 min".toList
    ⟨by decide, by decide, by decide, by decide, by decide, by decide⟩

theorem applyRulesE_throwing_ok (t : List Char) (st : TransformerStats)
    (h : t.contains 'x' = false) :
    applyRulesE [throwingRule] t st = .ok (t, st) := by
  have h' : ¬('x' ∈ t) := by simpa using h
  simp [applyRulesE, throwingRule, h']

theorem applyRulesE_throwing_error (t : List Char) (st : TransformerStats)
    (h : t.contains 'x' = true) :
    applyRulesE [throwingRule] t st =
      .error "Error in rule custom-throwing-rule" := by
  have h' : 'x' ∈ t := by simpa using h
  simp [applyRulesE, throwingRule, h']

theorem runSpansE_throwing_error :
    ∀ (spans : List Span) (st : TransformerStats),
      (∃ sp ∈ spans, sp.kind = SpanKind.text ∧ sp.content.contains 'x' = true) →
      runSpansE [throwingRule] spans st =
        .error "Error in rule custom-throwing-rule" := by
  intro spans
  induction spans with
  | nil => intro st h; obtain ⟨sp, hin, _⟩ := h; simp at hin
  | cons sp rest ih =>
    intro st h
    match sp with
    | ⟨.code, content⟩ =>
      have hrest : ∃ sp' ∈ rest, sp'.kind = SpanKind.text ∧ sp'.content.contains 'x' = true := by
        obtain ⟨sp', hin, hk, hx⟩ := h
        rcases List.mem_cons.mp hin with hin | hin
        · rw [hin] at hk; simp at hk
        · exact ⟨sp', hin, hk, hx⟩
      rw [runSpansE]
      simp only []
      rw [ih st hrest]
    | ⟨.text, content⟩ =>
      by_cases hx : content.contains 'x' = true
      · rw [runSpansE]
        simp only []
        rw [applyRulesE_throwing_error content st hx]
      · have hrest : ∃ sp' ∈ rest, sp'.kind = SpanKind.text ∧ sp'.content.contains 'x' = true := by
          obtain ⟨sp', hin, hk, hx'⟩ := h
          rcases List.mem_cons.mp hin with hin | hin
          · rw [hin] at hx'; exact absurd hx' hx
          · exact ⟨sp', hin, hk, hx'⟩
        rw [runSpansE]
        simp [applyRulesE_throwing_ok content st (by simpa using hx), ih st hrest]

/-- C8 counterexample: an exception thrown by a custom rule's replacement
function is NOT caught inside `preprocessMDX` — there is no try/catch in the
preprocessor, so the exception aborts the whole call instead of leaving the
input unchanged for the failing rule and continuing. -/
theorem c8_throwing_rule_counterexample :
    preprocessMDXE "x".toList [throwingRule] =
      Except.error "Error in rule custom-throwing-rule" := by
  rfl

/-- C8 amended: if a custom rule's replacement function throws while
`preprocessMDX` transforms some rewritable span (here: a rule with pattern
`/x/` whose callback throws on its first match), the exception propagates
and the whole call aborts with that exception; only the remark-plugin
variant (`mdxAutoFix` in `plugin.ts`) catches per-transformer failures and
continues. -/
theorem c8_amended_throw_aborts (md : List Char)
    (h : ∃ sp ∈ segmentCode md, sp.kind = SpanKind.text ∧ sp.content.contains 'x' = true) :
    preprocessMDXE md [throwingRule] =
      Except.error "Error in rule custom-throwing-rule" := by
  rw [preprocessMDXE]
  have hany : ([throwingRule].any fun r => r.name = codeLangName) = false := by decide
  have hfil : ([throwingRule].filter fun r => !(r.name = codeLangName)) = [throwingRule] := by
    rfl
  simp only [hany, hfil, Bool.false_eq_true, if_false]
  exact runSpansE_throwing_error (segmentCode md) ⟨0, []⟩ h

/-- Witness for the amended C8 at the concrete input `"ax b"`. -/
theorem c8_amended_throw_aborts_witness :
    preprocessMDXE "ax b".toList [throwingRule] =
      Except.error "Error in rule custom-throwing-rule" :=
  c8_amended_throw_aborts "ax b".toList (by decide)


/-- C9 counterexample: the claim says a supplied `enable` list makes the
active set exactly the rules it names, but the source guards the filter with
`enable.length > 0`: supplying the empty list `[]` leaves ALL rules active
(the claim predicts an empty active set and hence an unchanged output), and
the default rules then rewrite `"- <5"`. -/
theorem c9_enable_empty_counterexample :
    computeActive defaultPreprocessRules (some []) none = defaultPreprocessRules ∧
      defaultPreprocessRules ≠ [] ∧
      preprocessMDX "- <5".toList { enable := some [] } = "- &lt;5".toList ∧
      "- &lt;5".toList ≠ "- <5".toList := by
  refine ⟨rfl, by simp [defaultPreprocessRules], by decide, by decide⟩

/-- C9 amended: if a NON-EMPTY `enable` list is supplied, the active rule
set becomes exactly the rules named in it (an empty `enable` list is treated
as if absent); a `disable` list is applied after `enable` and removes the
rules it names; names matching no rule are silently ignored and cause no
error: membership in the active set is fully characterized below, and adding
an unknown name to a nonempty `enable` list, or to any `disable` list,
leaves the active set unchanged. -/
theorem c9_amended_rule_filtering :
    (∀ (rules : List PRule) (e d : List String) (r : PRule),
      r ∈ computeActive rules (some e) (some d) ↔
        r ∈ rules ∧ (e ≠ [] → e.contains r.name = true) ∧ d.contains r.name = false) ∧
      (∀ (rules : List PRule) (e : List String) (d : Option (List String)) (n : String),
        (∀ r ∈ rules, r.name ≠ n) → e ≠ [] →
        computeActive rules (some (n :: e)) d = computeActive rules (some e) d) ∧
      (∀ (rules : List PRule) (en : Option (List String)) (d : List String) (n : String),
        (∀ r ∈ rules, r.name ≠ n) →
        computeActive rules en (some (n :: d)) = computeActive rules en (some d)) := by
  refine ⟨?_, ?_, ?_⟩
  · intro rules e d r
    rw [computeActive]
    cases e <;> cases d <;> simp [List.mem_filter] <;> tauto
  · intro rules e d n hn he
    simp only [computeActive]
    cases e with
    | nil => exact absurd rfl he
    | cons eh et =>
      simp only [List.length_cons, gt_iff_lt, Nat.succ_pos, if_true]
      have hfil : (rules.filter fun r => (n :: eh :: et).contains r.name) =
          (rules.filter fun r => (eh :: et).contains r.name) := by
        apply List.filter_congr
        intro r hr
        have := hn r hr
        simp [List.contains, this]
      rw [hfil]
  · intro rules en d n hn
    simp only [computeActive]
    have key : ∀ a : List PRule, (∀ r ∈ a, r.name ≠ n) →
        ((a.filter fun r => !(n :: d).contains r.name) =
          if d.length > 0 then a.filter fun r => !d.contains r.name else a) := by
      intro a ha
      cases d with
      | nil =>
        simp only [List.length_nil, gt_iff_lt, Nat.lt_irrefl, if_false]
        rw [List.filter_eq_self]
        intro r hr
        have := ha r hr
        simp [List.contains, this]
      | cons dh dt =>
        simp only [List.length_cons, gt_iff_lt, Nat.succ_pos, if_true]
        apply List.filter_congr
        intro r hr
        have := ha r hr
        simp [List.contains, this]
    cases en with
    | none =>
      simp only [List.length_cons, gt_iff_lt, Nat.succ_pos, if_true]
      exact key rules hn
    | some e =>
      simp only [List.length_cons, gt_iff_lt, Nat.succ_pos, if_true]
      by_cases hel : e.length > 0
      · simp only [hel, if_true]
        apply key
        intro r hr
        exact hn r (List.mem_of_mem_filter hr)
      · simp only [hel, if_false]
        exact key rules hn

/-- Witness for the amended C9: concrete membership checks with a nonempty
`enable` list, a `disable` list applied after it, and unknown names added to
both lists without effect. -/
theorem c9_amended_rule_filtering_witness :
    (⟨"less-than-digit", ltDigitRun⟩ : PRule) ∈
        computeActive defaultPreprocessRules
          (some ["less-than-digit", "greater-than-digit"])
          (some ["greater-than-digit"]) ∧
      computeActive defaultPreprocessRules
          (some ["no-such-rule", "less-than-digit"]) none =
        computeActive defaultPreprocessRules (some ["less-than-digit"]) none ∧
      computeActive defaultPreprocessRules none (some ["no-such-rule"]) =
        computeActive defaultPreprocessRules none (some []) := by
  refine ⟨?_, ?_, ?_⟩
  · exact (c9_amended_rule_filtering.1 defaultPreprocessRules
      ["less-than-digit", "greater-than-digit"] ["greater-than-digit"]
      ⟨"less-than-digit", ltDigitRun⟩).mpr
      ⟨by simp [defaultPreprocessRules], fun _ => by decide, by decide⟩
  · exact c9_amended_rule_filtering.2.1 defaultPreprocessRules ["less-than-digit"] none
      "no-such-rule" (by decide) (by decide)
  · exact c9_amended_rule_filtering.2.2 defaultPreprocessRules none [] "no-such-rule"
      (by decide)

theorem setStat_sum (m : List (String × Nat)) (name : String) (n : Nat) :
    ((setStat m name (lookupStat m name + n)).map Prod.snd).sum =
      (m.map Prod.snd).sum + n := by
  induction m with
  | nil => simp [setStat, lookupStat]
  | cons p rest ih =>
    by_cases hp : p.1 = name
    · simp [setStat, lookupStat, hp]
      omega
    · simp [setStat, lookupStat, hp] at ih ⊢
      omega

theorem setStat_pos (m : List (String × Nat)) (name : String) (k : Nat)
    (hk : 0 < k) (hm : ∀ p ∈ m, 0 < p.2) :
    ∀ p ∈ setStat m name k, 0 < p.2 := by
  induction m with
  | nil =>
    intro p hp
    simp [setStat] at hp
    subst hp
    exact hk
  | cons q rest ih =>
    intro p hp
    by_cases hq : q.1 = name
    · simp [setStat, hq] at hp
      rcases hp with hp | hp
      · subst hp
        exact hk
      · exact hm p (List.mem_cons_of_mem q hp)
    · simp [setStat, hq] at hp
      rcases hp with hp | hp
      · subst hp
        exact hm p (List.mem_cons_self p rest)
      · exact ih (fun p' h' => hm p' (List.mem_cons_of_mem q h')) p hp

theorem statsInv_bump (st : TransformerStats) (name : String) (n : Nat)
    (hn : 0 < n) (h : statsInv st) :
    statsInv ⟨st.totalFixes + n,
      setStat st.byTransformer name (lookupStat st.byTransformer name + n)⟩ := by
  obtain ⟨hsum, hpos⟩ := h
  constructor
  · simp only [setStat_sum]
    omega
  · intro p hp
    exact setStat_pos st.byTransformer name (lookupStat st.byTransformer name + n)
      (by omega) hpos p hp

theorem applyRules_statsInv :
    ∀ (rules : List PRule) (t : List Char) (st : TransformerStats),
      statsInv st → statsInv (applyRules rules t st).2 := by
  intro rules
  induction rules with
  | nil => intro t st h; exact h
  | cons r rest ih =>
    intro t st h
    rw [applyRules]
    by_cases hp : (r.run t).2 > 0
    · simp only [hp, if_true]
      exact ih _ _ (statsInv_bump st r.name (r.run t).2 hp h)
    · simp only [hp, if_false]
      exact ih _ _ h

theorem runSpans_statsInv :
    ∀ (rules : List PRule) (spans : List Span) (st : TransformerStats),
      statsInv st → statsInv (runSpans rules spans st).2 := by
  intro rules spans
  induction spans with
  | nil => intro st h; exact h
  | cons sp rest ih =>
    intro st h
    match sp with
    | ⟨.code, content⟩ =>
      rw [runSpans]
      simp only []
      exact ih _ h
    | ⟨.text, content⟩ =>
      rw [runSpans]
      simp only []
      exact ih _ (applyRules_statsInv rules content st h)

theorem preprocessFull_statsInv (md : List Char) (opts : POptions) :
    statsInv (preprocessFull md opts).2 := by
  have hbase : statsInv ⟨0, []⟩ := ⟨rfl, by simp⟩
  have hfence : statsInv
      (if (computeActive opts.rules opts.enable opts.disable).any
            (fun r => r.name = codeLangName) then
        ((fenceRender false (fenceChunks md)).1,
          if (fenceRender false (fenceChunks md)).2 > 0 then
            (⟨(0 : Nat) + (fenceRender false (fenceChunks md)).2,
              setStat [] codeLangName (fenceRender false (fenceChunks md)).2⟩ :
              TransformerStats)
          else ⟨0, []⟩)
      else (md, (⟨0, []⟩ : TransformerStats))).2 := by
    split
    · split
      case isTrue hpos =>
        constructor
        · simp [setStat]
        · intro p hp
          simp [setStat] at hp
          subst hp
          exact hpos
      case isFalse => exact hbase
    · exact hbase
  rw [preprocessFull]
  split
  · exact runSpans_statsInv _ _ _ hfence
  · exact applyRules_statsInv _ _ _ hfence

/-- C10: whenever the statistics record is passed to `onStats` (i.e.
`totalFixes > 0`), it satisfies the invariant that `totalFixes` equals the
sum of the per-rule counts in `byTransformer` and every recorded entry is
strictly positive. -/
theorem c10_stats_invariant (md : List Char) (opts : POptions)
    (st : TransformerStats) (h : reportedStats md opts = some st) :
    statsInv st := by
  rw [reportedStats] at h
  split at h
  · cases h
    exact preprocessFull_statsInv md opts
  · cases h

/-- Witness for C10 at the `argdown` example, whose reported record is
`⟨1, [(normalize-code-block-language, 1)]⟩`. -/
theorem c10_stats_invariant_witness :
    statsInv ⟨1, [(codeLangName, 1)]⟩ :=
  c10_stats_invariant "```argdown\n[Claim]: A\n```".toList {}
    ⟨1, [(codeLangName, 1)]⟩ (by decide)
